import Mathlib

/-!  Shallow embedding of the z.Buffer arena and the Bloom2 filter from the
ristretto z package, with proofs of the spec claims.

Bytes are modelled as `Nat` (below 256 in real executions; byte-ness is
irrelevant to these algorithms, which only move bytes around and decode
32-bit big-endian length prefixes).  Machine-integer arithmetic is modelled
on `Nat`, with `% 2 ^ 32` where uint32 wrap-around matters; int64 size
arithmetic cannot overflow at the magnitudes these claims range over.
Go's `copy` builtin is modelled by `writeBytes`: it copies `min` of the two
lengths and, like `memmove`, reads its source atomically.  Loops are
modelled with explicit fuel; every entry point passes fuel provably
sufficient for the loop bound.  Paths that call `panic`/`log.Fatalf` in Go
are modelled as `Option.none` where a claim depends on them; `log.Fatalf`
assertions internal to the sort engine hold on the well-formed chains the
claims quantify over and are not modelled otherwise. -/

namespace Z

set_option maxRecDepth 40000

/-- Go `copy(buf[pos:], p)` (or `copy(buf[pos:hi], p)` after the caller caps
`p` at `hi - pos`): overwrite `buf` from position `pos` with `p`, copying
only what fits in `buf`.  `memmove` semantics: the source is read whole. -/
def writeBytes (buf : List Nat) (pos : Nat) (p : List Nat) : List Nat :=
  buf.take pos ++ p.take (buf.length - pos) ++ buf.drop (pos + p.length)

/-- The Go sub-slice read `buf[a:b]` as a value. -/
def extract (buf : List Nat) (a b : Nat) : List Nat :=
  (buf.drop a).take (b - a)

/-- `binary.BigEndian.PutUint32`: the four big-endian bytes of `n % 2^32`. -/
def be32 (n : Nat) : List Nat :=
  [n % 2 ^ 32 / 2 ^ 24, n % 2 ^ 32 / 2 ^ 16 % 256, n % 2 ^ 32 / 2 ^ 8 % 256,
    n % 2 ^ 32 % 256]

/-- `binary.BigEndian.Uint32`: decode the first four bytes of `l`. -/
def readBE32 (l : List Nat) : Nat :=
  l.getD 0 0 * 2 ^ 24 + l.getD 1 0 * 2 ^ 16 + l.getD 2 0 * 2 ^ 8 + l.getD 3 0

inductive BufferType where
  | UseCalloc
  | UseMmap
  | UseInvalid
deriving DecidableEq, Repr

/-- State of a z.Buffer.  The file handle of the mmap backend carries no
algorithmic state and is left to the release model below. -/
structure Buffer where
  buf : List Nat
  offset : Nat
  curSz : Nat
  maxSz : Nat
  bufType : BufferType
  autoMmapAfter : Nat
deriving DecidableEq, Repr

/-- `smallBufferSize`, the initial allocation minimal capacity. -/
def smallBufferSize : Nat := 64

/-- `math.MaxInt32`, the default `maxSz`. -/
def maxInt32 : Nat := 2 ^ 31 - 1

/-- `doMmap`: create a temp file, truncate it to `curSz`, mmap it up to
`maxSz` (a fresh mapping reads as zeros), copy the live prefix
`[0, offset)` of the old region over, and switch the backend tag.
Collaborator failures (temp file, truncate, mmap) abort construction or
growth and are outside the executions the claims quantify over. -/
def Buffer.doMmap (b : Buffer) : Buffer :=
  { b with
    buf := writeBytes (List.replicate b.maxSz 0) 0 (b.buf.take b.offset),
    bufType := .UseMmap }

/-- `NewBufferWith(sz, maxSz, bufType)`.  Zero sizes pick the defaults; the
backend is allocated (`Calloc` returns zeroed memory of length `sz`, mmap
maps `maxSz` bytes); position 0 is then set to the sentinel byte.  An
invalid backend tag hits `log.Fatalf`, modelled as `none`. -/
def NewBufferWith (sz0 maxSz0 : Nat) (bufType : BufferType) : Option Buffer :=
  let sz := if sz0 = 0 then smallBufferSize else sz0
  let maxSz := if maxSz0 = 0 then maxInt32 else maxSz0
  let b : Buffer :=
    { buf := [], offset := 1, curSz := sz, maxSz := maxSz,
      bufType := .UseCalloc, autoMmapAfter := 0 }
  match bufType with
  | .UseCalloc =>
      let b := { b with buf := List.replicate sz 0 }
      some { b with buf := writeBytes b.buf 0 [0] }
  | .UseMmap =>
      let b := b.doMmap
      some { b with buf := writeBytes b.buf 0 [0] }
  | .UseInvalid => none

/-- `NewBuffer`: a virtually unlimited buffer in UseCalloc mode. -/
def NewBuffer (sz : Nat) : Option Buffer :=
  NewBufferWith sz (256 * 2 ^ 30) .UseCalloc

/-- `Grow(n)`.  A growth request past `maxSz` (`maxSz - offset < n`) panics,
modelled as `none`.  If the headroom `curSz - offset` strictly exceeds `n`
nothing happens.  Otherwise the capacity grows by `curSz + n`, capped at
1 GiB but never below `n`; the heap backend reallocates (zeroed memory,
live prefix copied over) or promotes to mmap past `autoMmapAfter`; the
mmap backend merely truncates its file (the mapping already spans
`maxSz`). -/
def Buffer.Grow (b : Buffer) (n : Nat) : Option Buffer :=
  if b.maxSz < b.offset + n then none
  else if b.offset + n < b.curSz then some b
  else
    let growBy0 := b.curSz + n
    let growBy1 := if 2 ^ 30 < growBy0 then 2 ^ 30 else growBy0
    let growBy := if growBy1 < n then n else growBy1
    let curSz := b.curSz + growBy
    match b.bufType with
    | .UseCalloc =>
        if 0 < b.autoMmapAfter ∧ b.autoMmapAfter < curSz then
          some { b with curSz := curSz }.doMmap
        else
          some { b with
            curSz := curSz,
            buf := writeBytes (List.replicate curSz 0) 0 (b.buf.take b.offset) }
    | _ => some { b with curSz := curSz }

/-- `AllocateOffset(n)`: grow, advance the cursor by `n`, return the start
offset of the fresh range. -/
def Buffer.AllocateOffset (b : Buffer) (n : Nat) : Option (Buffer × Nat) :=
  (b.Grow n).map fun b' => ({ b' with offset := b'.offset + n }, b'.offset)

/-- `Allocate(n)`: like `AllocateOffset` but hands back the byte range
`buf[off : off+n]` itself. -/
def Buffer.Allocate (b : Buffer) (n : Nat) : Option (Buffer × List Nat) :=
  (b.Grow n).map fun b' =>
    ({ b' with offset := b'.offset + n },
      extract b'.buf b'.offset (b'.offset + n))

/-- `writeLen(sz)`: allocate 4 bytes and put the big-endian uint32 `sz`
there (writing through the returned view writes at its start offset). -/
def Buffer.writeLen (b : Buffer) (sz : Nat) : Option Buffer :=
  (b.AllocateOffset 4).map fun p =>
    { p.1 with buf := writeBytes p.1.buf p.2 (be32 sz) }

/-- `SliceAllocate(sz)`: grow for `4 + sz`, encode the length prefix, then
allocate the payload range; the model returns its start offset. -/
def Buffer.SliceAllocate (b : Buffer) (sz : Nat) : Option (Buffer × Nat) := do
  let b1 ← b.Grow (4 + sz)
  let b2 ← b1.writeLen sz
  b2.AllocateOffset sz

/-- `WriteSlice(slice)`: `SliceAllocate` then copy the payload into the
returned range. -/
def Buffer.WriteSlice (b : Buffer) (p : List Nat) : Option Buffer :=
  (b.SliceAllocate p.length).map fun q =>
    { q.1 with buf := writeBytes q.1.buf q.2 p }

/-- `Write(p)`: grow, copy `p` at the cursor, advance the cursor by the
number of bytes copied. -/
def Buffer.Write (b : Buffer) (p : List Nat) : Option Buffer :=
  (b.Grow p.length).map fun b' =>
    { b' with
      buf := writeBytes b'.buf b'.offset p,
      offset := b'.offset + min (b'.buf.length - b'.offset) p.length }

/-- `Reset()`: rewind the cursor to 1. -/
def Buffer.Reset (b : Buffer) : Buffer :=
  { b with offset := 1 }

/-- `Len()`: bytes written so far (the cursor). -/
def Buffer.Len (b : Buffer) : Nat := b.offset

/-- `IsEmpty()`. -/
def Buffer.IsEmpty (b : Buffer) : Bool := b.offset = 1

/-- `Bytes()`: the written region `buf[1:offset]`. -/
def Buffer.Bytes (b : Buffer) : List Nat := extract b.buf 1 b.offset

/-- `Slice(offset)`: the record at `offset` and the offset of the next one
(0 once the cursor is reached). -/
def Buffer.Slice (b : Buffer) (offset : Nat) : List Nat × Nat :=
  if b.offset ≤ offset then ([], 0)
  else
    let sz := readBE32 (b.buf.drop offset)
    let start := offset + 4
    let next := start + sz
    let res := extract b.buf start next
    if b.offset ≤ next then (res, 0) else (res, next)

/-- Loop of `SliceOffsets`: collect `next` and chase `Slice` until it
returns 0. -/
def sliceOffsetsAux (b : Buffer) : Nat → Nat → List Nat
  | 0, _ => []
  | fuel + 1, next =>
      if next = 0 then []
      else next :: sliceOffsetsAux b fuel (b.Slice next).2

/-- `SliceOffsets()`: every record's start offset, walking from offset 1. -/
def Buffer.SliceOffsets (b : Buffer) : List Nat :=
  sliceOffsetsAux b (b.offset + 1) 1

/-- The record payloads a Slice-chasing walk visits inside `[next, end_)`;
this is the bounded-range form of the loop shared by `SliceIterate`,
`sortSmall` and `SortSliceBetween`. -/
def sliceRangeAux (b : Buffer) : Nat → Nat → Nat → List (List Nat)
  | 0, _, _ => []
  | fuel + 1, next, end_ =>
      if next = 0 ∨ end_ ≤ next then []
      else (b.Slice next).1 :: sliceRangeAux b fuel (b.Slice next).2 end_

/-- Iterating the records of `[start, end_)` via `Slice`, as
`SliceIterate` does over the whole buffer. -/
def Buffer.SliceRange (b : Buffer) (start end_ : Nat) : List (List Nat) :=
  sliceRangeAux b (b.offset + 1) start end_

/-- `rawSlice(buf)`: the whole record span at the head of `buf`, length
prefix included. -/
def rawSlice (buf : List Nat) : List Nat :=
  buf.take (4 + readBE32 buf)

/-- Insertion step for the model of `sort.Slice`. -/
def insertBy {α : Type} (less : α → α → Bool) (x : α) : List α → List α
  | [] => [x]
  | y :: ys => if less x y then x :: y :: ys else y :: insertBy less x ys

/-- Model of Go `sort.Slice(s, less)`: a comparator-directed sort of the
list.  `sort.Slice` promises some permutation of the input that is sorted
under `less`; this realises that contract deterministically (insertion
sort, which also evaluates inside the kernel). -/
def sortBy {α : Type} (less : α → α → Bool) : List α → List α
  | [] => []
  | x :: xs => insertBy less x (sortBy less xs)

/-- First loop of `sortSmall`: collect all record offsets in
`[next, end_)`. -/
def collectSmallAux (b : Buffer) : Nat → Nat → Nat → List Nat
  | 0, _, _ => []
  | fuel + 1, next, end_ =>
      if next = 0 ∨ end_ ≤ next then []
      else next :: collectSmallAux b fuel (b.Slice next).2 end_

/-- `sortHelper.sortSmall(start, end)`: collect the record offsets of the
run, sort them with `sort.Slice` comparing the payloads `Slice` returns,
lay the whole records out in that order (the writes into `s.tmp`, whose
`Bytes()` is exactly their concatenation), and copy the result back over
`buf[start:end]`.  The closing `assert` (copied == end-start) holds on the
well-formed chains the claims quantify over. -/
def Buffer.sortSmall (b : Buffer) (less : List Nat → List Nat → Bool)
    (start end_ : Nat) : Buffer :=
  let small := collectSmallAux b (b.offset + 1) start end_
  let sorted := sortBy (fun i j => less (b.Slice i).1 (b.Slice j).1) small
  let region := (sorted.map fun off => rawSlice (b.buf.drop off)).flatten
  { b with buf := writeBytes b.buf start (region.take (end_ - start)) }

/-- Loop of `sortHelper.merge`.  `left` is the scratch copy of the left run
(`s.tmp.Bytes()` after `tmp.Reset(); tmp.Write(left)`); the right run
lives in the buffer itself at `[rpos, rpos+rlen)` and every read of it
goes through the live buffer, exactly as the Go slice `right` aliases
`s.b.buf`.  The two `copy` calls into `b.buf[start:...]` are `writeBytes`;
their length asserts hold on well-formed chains. -/
def mergeLoop (less : List Nat → List Nat → Bool) :
    Nat → List Nat → List Nat → Nat → Nat → Nat → Nat → List Nat
  | 0, buf, _, _, _, _, _ => buf
  | fuel + 1, buf, left, rpos, rlen, start, end_ =>
      if end_ ≤ start then buf
      else if left.length = 0 then
        writeBytes buf start
          ((extract buf rpos (rpos + rlen)).take (end_ - start))
      else if rlen = 0 then
        writeBytes buf start (left.take (end_ - start))
      else
        let ls := rawSlice left
        let rs := rawSlice (extract buf rpos (rpos + rlen))
        if less (ls.drop 4) (rs.drop 4) then
          mergeLoop less fuel (writeBytes buf start ls) (left.drop ls.length)
            rpos rlen (start + ls.length) end_
        else
          mergeLoop less fuel (writeBytes buf start rs) left
            (rpos + rs.length) (rlen - rs.length) (start + rs.length) end_

/-- `sortHelper.merge(left, right, start, end)`: nothing to do when either
side is empty; otherwise run the merge loop.  On a well-formed call each
loop iteration moves `start` forward by at least 4 bytes, so
`end_ - start` iterations are ample fuel. -/
def merge (less : List Nat → List Nat → Bool) (buf left : List Nat)
    (rpos rlen start end_ : Nat) : List Nat :=
  if left.length = 0 ∨ rlen = 0 then buf
  else mergeLoop less (end_ - start) buf left rpos rlen start end_

/-- `sortHelper.sort(lo, hi)` on checkpoint indices: split the checkpoint
range in half, sort both halves, then merge the two adjacent sorted
regions in place.  The Go recursion bottoms out when `lo == mid`; the
fuel only needs to exceed `hi - lo`, which halves at every level. -/
def sortAux (less : List Nat → List Nat → Bool) (offs : List Nat) :
    Nat → List Nat → Nat → Nat → List Nat
  | 0, buf, _, _ => buf
  | fuel + 1, buf, lo, hi =>
      let mid := lo + (hi - lo) / 2
      if lo = mid then buf
      else
        let buf1 := sortAux less offs fuel buf lo mid
        let buf2 := sortAux less offs fuel buf1 mid hi
        let loff := offs.getD lo 0
        let moff := offs.getD mid 0
        let hoff := offs.getD hi 0
        merge less buf2 (extract buf2 loff moff) moff (hoff - moff) loff hoff

/-- The `for _, off := range offsets[1:]` loop of `SortSliceBetween`:
`sortSmall` every consecutive checkpoint pair. -/
def sortSmallFold (less : List Nat → List Nat → Bool) :
    Buffer → Nat → List Nat → Buffer
  | b, _, [] => b
  | b, left, off :: rest => sortSmallFold less (b.sortSmall less left off) off rest

/-- Checkpoint loop of `SortSliceBetween`: walk the chain, recording every
1024th record's offset. -/
def checkpointsAux (b : Buffer) : Nat → Nat → Nat → Nat → List Nat
  | 0, _, _, _ => []
  | fuel + 1, next, end_, count =>
      if next = 0 ∨ end_ ≤ next then []
      else
        (if count % 1024 = 0 then [next] else []) ++
          checkpointsAux b fuel (b.Slice next).2 end_ (count + 1)

/-- `SortSliceBetween(start, end, less)`: no-op on an empty range; a zero
`start` panics (`none`).  Otherwise: collect checkpoints (appending `end`
when it is not already the last one), `sortSmall` each run, then merge
recursively.  The scratch buffer `s.tmp` the Go code allocates here and
releases on exit appears only through the pure values already inlined in
`sortSmall` and `merge`. -/
def Buffer.SortSliceBetween (b : Buffer) (start end_ : Nat)
    (less : List Nat → List Nat → Bool) : Option Buffer :=
  if end_ ≤ start then some b
  else if start = 0 then none
  else
    let offs0 := checkpointsAux b (b.offset + 1) start end_ 0
    let offs := if offs0.getLast? = some end_ then offs0 else offs0 ++ [end_]
    let b1 := sortSmallFold less b (offs.headD 0) offs.tail
    some { b1 with buf := sortAux less offs offs.length b1.buf 0 (offs.length - 1) }

/-- `SortSlice`: `SortSliceBetween` over the whole buffer. -/
def Buffer.SortSlice (b : Buffer) (less : List Nat → List Nat → Bool) :
    Option Buffer :=
  b.SortSliceBetween 1 b.offset less

/-! ## Bloom2 filter (bloom2.go)

The filter state is its encoded byte buffer `bitset`.  Hash values are
uint32, modelled as `Nat` with `% 2 ^ 32` wrap-around. -/

/-- The double-hashing increment `h>>17 | h<<15` on uint32 (the two
operands occupy disjoint bit ranges below 2^32). -/
def bloomDelta (h : Nat) : Nat :=
  h >>> 17 ||| (h <<< 15) % 2 ^ 32

/-- The probe count `k` of `Add`: `uint32(float64(10) * 0.69)` with the
hard-coded `bitsPerKey = 10` (`0.69` approximates ln 2).  The double
product lies strictly between 6 and 7, so the uint32 conversion truncates
it to 6, the value of the rational computation below; the clamps to
`[1, 30]` follow the source. -/
def bloomK : Nat :=
  let k0 := 10 * 69 / 100
  let k1 := if k0 < 1 then 1 else k0
  if 30 < k1 then 30 else k1

/-- Modelled from the spec: `extend` is called by `Add` but is not under
src/.  Per the spec, `add` "extends the encoded buffer to this size (plus
one trailing byte for `k`)": the buffer is resized to the requested
length, keeping its existing bytes and zero-filling the tail, and the
working view `filter` is that whole resized buffer. -/
def bloomExtend (b : List Nat) (n : Nat) : List Nat :=
  if n ≤ b.length then b else b ++ List.replicate (n - b.length) 0

/-- `filter[bitPos/8] |= 1 << (bitPos % 8)`. -/
def setBit (f : List Nat) (p : Nat) : List Nat :=
  f.set (p / 8) (f.getD (p / 8) 0 ||| 1 <<< (p % 8))

/-- Inner probe loop of `Add` for one hash: set `k` bits, stepping the
hash by `delta` (uint32 addition) between probes. -/
def bloomSetProbes (delta nBits : Nat) : Nat → Nat → List Nat → List Nat
  | 0, _, f => f
  | j + 1, h, f =>
      bloomSetProbes delta nBits j ((h + delta) % 2 ^ 32) (setBit f (h % nBits))

/-- `Bloom2.Add(hashes...)`: derive `k` and the bit-array geometry from
this call's batch, extend the buffer, set `k` probe bits per hash, and
store `k` in `filter[nBytes]`. -/
def Bloom2Add (bitset : List Nat) (hashes : List Nat) : List Nat :=
  let k := bloomK
  let nBits0 := hashes.length * 10
  let nBits1 := if nBits0 < 64 then 64 else nBits0
  let nBytes := (nBits1 + 7) / 8
  let nBits := nBytes * 8
  let f0 := bloomExtend bitset (nBytes + 1)
  let f1 := hashes.foldl (fun f h => bloomSetProbes (bloomDelta h) nBits k h f) f0
  f1.set nBytes k

/-- Modelled from the spec: `NewFilter` is not under src/.  Per the spec,
`create(bitsPerKey = 10)` "initializes an empty encoded filter (zero keys
present yet)" — the filter `Add` produces for an empty batch on an empty
buffer: 64 zero bits plus the trailing `k` byte. -/
def NewBloomFilter2 : List Nat :=
  Bloom2Add [] []

/-- Inner probe loop of `Has`: check `k` bits, stepping the hash by
`delta`; fail fast on the first unset bit. -/
def bloomCheckProbes (delta nBits : Nat) : Nat → Nat → List Nat → Bool
  | 0, _, _ => true
  | j + 1, h, f =>
      let bitPos := h % nBits
      if f.getD (bitPos / 8) 0 &&& 1 <<< (bitPos % 8) = 0 then false
      else bloomCheckProbes delta nBits j ((h + delta) % 2 ^ 32) f

/-- `Bloom2.Has(h)`: empty/untrained filters report absent; a stored
`k > 30` is a reserved encoding reported as an unconditional match;
otherwise run the `k`-probe walk over `8 * (len-1)` bits. -/
def Bloom2Has (f : List Nat) (h : Nat) : Bool :=
  if f.length < 2 then false
  else
    let k := f.getD (f.length - 1) 0
    if 30 < k then true
    else
      let nBits := 8 * (f.length - 1)
      bloomCheckProbes (bloomDelta h) nBits k h f

/-- `Bloom2.AddIfNotHas(hash)`: membership test first; only add (and
report true) when absent.  Returns the reported Bool and the resulting
bitset. -/
def Bloom2AddIfNotHas (f : List Nat) (h : Nat) : Bool × List Nat :=
  if Bloom2Has f h then (false, f)
  else (true, Bloom2Add f [h])

/-- `Bloom2.Clear()`: the body assigns a fresh filter to the local copy of
the receiver pointer (`bl = NewBloomFilter2()`), so the caller's filter
state is untouched; the constructed value is discarded. -/
def Bloom2Clear (f : List Nat) : List Nat :=
  let _fresh := NewBloomFilter2
  f

/-! ## Release (buffer.go)

`Release` interacts with the allocator and the OS; those collaborators are
modelled as oracles recording whether each call fails and with what
message.  The model also returns the list of collaborator calls actually
attempted, in order. -/

inductive RStep where
  | free
  | munmap
  | truncate
  | close
  | remove
deriving DecidableEq, Repr

/-- Outcomes the OS hands back for each mmap-backend cleanup step
(`none` = success). -/
structure OsOutcomes where
  munmapErr : Option String
  truncateErr : Option String
  closeErr : Option String
  removeErr : Option String
deriving DecidableEq, Repr

/-- `errors.Wrapf(err, msg, fname)`: the wrapped message. -/
def wrapErr (e msg : String) : String := msg ++ ": " ++ e

/-- `Release()`: the heap backend frees the region and reports success;
the mmap backend unmaps, truncates to zero, closes and deletes the file in
that order, returning the first failing step's error wrapped with the
file name.  Every failure is returned, never `log.Fatalf`-ed. -/
def Release (t : BufferType) (fname : String) (os : OsOutcomes) :
    Except String Unit × List RStep :=
  match t with
  | .UseCalloc => (.ok (), [.free])
  | .UseInvalid => (.ok (), [])
  | .UseMmap =>
      match os.munmapErr with
      | some e => (.error (wrapErr e ("while munmap file " ++ fname)), [.munmap])
      | none =>
          match os.truncateErr with
          | some e =>
              (.error (wrapErr e ("while truncating file " ++ fname)),
                [.munmap, .truncate])
          | none =>
              match os.closeErr with
              | some e =>
                  (.error (wrapErr e ("while closing file " ++ fname)),
                    [.munmap, .truncate, .close])
              | none =>
                  match os.removeErr with
                  | some e =>
                      (.error (wrapErr e ("while deleting file " ++ fname)),
                        [.munmap, .truncate, .close, .remove])
                  | none => (.ok (), [.munmap, .truncate, .close, .remove])

/-! ## List-surgery lemma kit -/

theorem length_writeBytes (buf : List Nat) (pos : Nat) (p : List Nat) :
    (writeBytes buf pos p).length = buf.length := by
  simp only [writeBytes, List.length_append, List.length_take, List.length_drop]
  omega

theorem writeBytes_of_fit (buf : List Nat) (pos : Nat) (p : List Nat)
    (h : pos + p.length ≤ buf.length) :
    writeBytes buf pos p = buf.take pos ++ p ++ buf.drop (pos + p.length) := by
  have hp : p.take (buf.length - pos) = p := List.take_of_length_le (by omega)
  rw [writeBytes, hp]

theorem length_extract (buf : List Nat) (a b : Nat) :
    (extract buf a b).length = min (b - a) (buf.length - a) := by
  simp [extract]

theorem extract_eq_nil (buf : List Nat) (a : Nat) : extract buf a a = [] := by
  simp [extract]

/-- The byte string `seg` sits in `buf` at position `pos`. -/
def SegAt (buf : List Nat) (pos : Nat) (seg : List Nat) : Prop :=
  pos + seg.length ≤ buf.length ∧
    buf.drop pos = seg ++ buf.drop (pos + seg.length)

instance (buf : List Nat) (pos : Nat) (seg : List Nat) :
    Decidable (SegAt buf pos seg) := by
  unfold SegAt; infer_instance

theorem SegAt.le {buf : List Nat} {pos : Nat} {seg : List Nat}
    (h : SegAt buf pos seg) : pos + seg.length ≤ buf.length := h.1

theorem SegAt.drop_eq {buf : List Nat} {pos : Nat} {seg : List Nat}
    (h : SegAt buf pos seg) :
    buf.drop pos = seg ++ buf.drop (pos + seg.length) := h.2

theorem segAt_iff_parts {buf : List Nat} {pos : Nat} {seg : List Nat} :
    SegAt buf pos seg ↔
      ∃ u v, buf = u ++ seg ++ v ∧ u.length = pos := by
  constructor
  · intro h
    refine ⟨buf.take pos, buf.drop (pos + seg.length), ?_, ?_⟩
    · conv_lhs => rw [← List.take_append_drop pos buf]
      rw [h.drop_eq, List.append_assoc]
    · have := h.1
      simp only [List.length_take]
      omega
  · rintro ⟨u, v, rfl, rfl⟩
    constructor
    · simp
    · rw [List.append_assoc, List.drop_left]
      have h1 : u.length + seg.length = (u ++ seg).length := by simp
      rw [h1, ← List.append_assoc, List.drop_left]

theorem segAt_parts (u seg v : List Nat) : SegAt (u ++ seg ++ v) u.length seg :=
  segAt_iff_parts.mpr ⟨u, v, rfl, rfl⟩

theorem SegAt.extract_eq {buf : List Nat} {pos : Nat} {seg : List Nat}
    (h : SegAt buf pos seg) : extract buf pos (pos + seg.length) = seg := by
  rw [extract, h.drop_eq, Nat.add_sub_cancel_left,
    List.take_append_of_le_length (le_refl seg.length), List.take_length]

theorem SegAt.append {buf : List Nat} {pos : Nat} {s t : List Nat}
    (hs : SegAt buf pos s) (ht : SegAt buf (pos + s.length) t) :
    SegAt buf pos (s ++ t) := by
  refine ⟨by have := ht.1; simp only [List.length_append]; omega, ?_⟩
  rw [hs.drop_eq, ht.drop_eq, List.append_assoc]
  have h1 : pos + s.length + t.length = pos + (s ++ t).length := by
    simp only [List.length_append]; omega
  rw [h1]

theorem SegAt.append_left {buf : List Nat} {pos : Nat} {s t : List Nat}
    (h : SegAt buf pos (s ++ t)) : SegAt buf pos s := by
  rcases segAt_iff_parts.mp h with ⟨u, v, rfl, rfl⟩
  have h1 : u ++ (s ++ t) ++ v = u ++ s ++ (t ++ v) := by simp
  rw [h1]
  exact segAt_parts u s (t ++ v)

theorem SegAt.append_right {buf : List Nat} {pos : Nat} {s t : List Nat}
    (h : SegAt buf pos (s ++ t)) : SegAt buf (pos + s.length) t := by
  rcases segAt_iff_parts.mp h with ⟨u, v, rfl, rfl⟩
  have h1 : u ++ (s ++ t) ++ v = (u ++ s) ++ t ++ v := by simp
  have h2 : u.length + s.length = (u ++ s).length := by simp
  rw [h1, h2]
  exact segAt_parts (u ++ s) t v

theorem segAt_iff_ex {buf : List Nat} {pos : Nat} {seg : List Nat} :
    SegAt buf pos seg ↔
      pos + seg.length ≤ buf.length ∧ extract buf pos (pos + seg.length) = seg := by
  constructor
  · intro h; exact ⟨h.1, h.extract_eq⟩
  · rintro ⟨hle, hex⟩
    have hex' : (buf.drop pos).take seg.length = seg := by
      simpa [extract, Nat.add_sub_cancel_left] using hex
    refine segAt_iff_parts.mpr ⟨buf.take pos, buf.drop (pos + seg.length), ?_,
      by simp only [List.length_take]; omega⟩
    conv_lhs => rw [← List.take_append_drop pos buf,
      ← List.take_append_drop seg.length (buf.drop pos)]
    rw [hex', List.drop_drop, ← List.append_assoc]

theorem extract_eq_of_take_eq {buf buf' : List Nat} {m q e : Nat}
    (htake : buf'.take m = buf.take m) (he : e ≤ m) :
    extract buf' q e = extract buf q e := by
  have key : ∀ l : List Nat, extract l q e = ((l.take m).drop q).take (e - q) := by
    intro l
    rw [extract, List.drop_take]
    rw [List.take_take]
    congr 1
    omega
  rw [key buf', key buf, htake]

theorem extract_eq_of_drop_eq {buf buf' : List Nat} {m q e : Nat}
    (hdrop : buf'.drop m = buf.drop m) (hq : m ≤ q) :
    extract buf' q e = extract buf q e := by
  have key : ∀ l : List Nat, extract l q e = ((l.drop m).drop (q - m)).take (e - q) := by
    intro l
    rw [extract, List.drop_drop]
    congr 2
    omega
  rw [key buf', key buf, hdrop]

theorem SegAt.of_take_eq {buf buf' : List Nat} {m q : Nat} {s : List Nat}
    (hs : SegAt buf q s) (hlen : buf'.length = buf.length)
    (htake : buf'.take m = buf.take m) (hm : q + s.length ≤ m) :
    SegAt buf' q s := by
  refine segAt_iff_ex.mpr ⟨by rw [hlen]; exact hs.1, ?_⟩
  rw [extract_eq_of_take_eq htake hm]
  exact hs.extract_eq

theorem SegAt.of_drop_eq {buf buf' : List Nat} {m q : Nat} {s : List Nat}
    (hs : SegAt buf q s) (hlen : buf'.length = buf.length)
    (hdrop : buf'.drop m = buf.drop m) (hm : m ≤ q) :
    SegAt buf' q s := by
  refine segAt_iff_ex.mpr ⟨by rw [hlen]; exact hs.1, ?_⟩
  rw [extract_eq_of_drop_eq hdrop hm]
  exact hs.extract_eq

theorem take_writeBytes {buf : List Nat} {pos : Nat} {p : List Nat} {q : Nat}
    (h1 : q ≤ pos) (h2 : pos ≤ buf.length) :
    (writeBytes buf pos p).take q = buf.take q := by
  rw [writeBytes, List.append_assoc,
    List.take_append_of_le_length (by simp; omega), List.take_take,
    Nat.min_eq_left h1]

theorem drop_writeBytes {buf : List Nat} {pos : Nat} {p : List Nat} {q : Nat}
    (h : pos + p.length ≤ q) :
    (writeBytes buf pos p).drop q = buf.drop q := by
  rcases Nat.le_total pos buf.length with hp | hp
  · rcases Nat.le_total (pos + p.length) buf.length with hf | hf
    · rw [writeBytes_of_fit _ _ _ hf]
      have hlen : ((buf.take pos ++ p).length) = pos + p.length := by
        simp; omega
      rw [List.drop_append_eq_append_drop, hlen,
        List.drop_eq_nil_of_le (by rw [hlen]; omega), List.drop_drop,
        List.nil_append]
      congr 1
      omega
    · have hq : buf.length ≤ q := by omega
      rw [List.drop_eq_nil_of_le (by rw [length_writeBytes]; omega),
        List.drop_eq_nil_of_le hq]
  · have hq : buf.length ≤ q := by omega
    rw [List.drop_eq_nil_of_le (by rw [length_writeBytes]; omega),
      List.drop_eq_nil_of_le hq]

theorem segAt_writeBytes_self {buf : List Nat} {pos : Nat} {p : List Nat}
    (h : pos + p.length ≤ buf.length) :
    SegAt (writeBytes buf pos p) pos p := by
  rw [writeBytes_of_fit _ _ _ h]
  have h1 : (buf.take pos).length = pos := by simp; omega
  have := segAt_parts (buf.take pos) p (buf.drop (pos + p.length))
  rwa [h1] at this

theorem SegAt.writeBytes_left {buf : List Nat} {q : Nat} {s : List Nat}
    {pos : Nat} {p : List Nat}
    (hs : SegAt buf q s) (h : q + s.length ≤ pos) (h2 : pos ≤ buf.length) :
    SegAt (writeBytes buf pos p) q s :=
  hs.of_take_eq (length_writeBytes _ _ _) (take_writeBytes (le_refl pos) h2) h

theorem SegAt.writeBytes_right {buf : List Nat} {q : Nat} {s : List Nat}
    {pos : Nat} {p : List Nat}
    (hs : SegAt buf q s) (h : pos + p.length ≤ q) :
    SegAt (writeBytes buf pos p) q s :=
  hs.of_drop_eq (length_writeBytes _ _ _) (drop_writeBytes (le_refl _)) h

theorem readBE32_append (n : Nat) (rest : List Nat) :
    readBE32 (be32 n ++ rest) = n % 2 ^ 32 := by
  have h : n % 2 ^ 32 < 2 ^ 32 := Nat.mod_lt _ (by norm_num)
  simp only [readBE32, be32, List.cons_append, List.getD_cons_zero,
    List.getD_cons_succ]
  omega

theorem length_be32 (n : Nat) : (be32 n).length = 4 := rfl

/-! ## Numeric state invariant (claims C3, C4) -/

/-- The part of the spec invariant `1 <= offset <= curSize <= maxSize` that
the code actually maintains: `curSz ≤ maxSz` is not one of them. -/
def NumInv (b : Buffer) : Prop :=
  1 ≤ b.offset ∧ b.offset ≤ b.curSz ∧ b.offset ≤ b.maxSz

instance (b : Buffer) : Decidable (NumInv b) := by
  unfold NumInv; infer_instance

/-- Effect of a successful `Grow` on the numeric fields. -/
theorem Grow_num {b : Buffer} {n : Nat} {b' : Buffer}
    (hinv : NumInv b) (h : b.Grow n = some b') :
    NumInv b' ∧ b'.offset = b.offset ∧ b'.maxSz = b.maxSz ∧
      b'.autoMmapAfter = b.autoMmapAfter ∧
      b.offset + n ≤ b'.curSz ∧ b.offset + n ≤ b.maxSz ∧ b.curSz ≤ b'.curSz := by
  obtain ⟨h1, h2, h3⟩ := hinv
  rw [Buffer.Grow] at h
  split at h
  · exact absurd h (by simp)
  rename_i hmax
  split at h
  · rename_i hno
    obtain rfl : b = b' := by simpa using h
    exact ⟨⟨h1, h2, h3⟩, rfl, rfl, rfl, by omega, by omega, le_refl _⟩
  rename_i hgrow
  simp only at h
  repeat' split at h
  all_goals
    injection h with h
    subst h
    refine ⟨⟨?_, ?_, ?_⟩, ?_, ?_, ?_, ?_, ?_, ?_⟩ <;>
      (try simp [Buffer.doMmap]) <;> omega

theorem AllocateOffset_num {b : Buffer} {n : Nat} {r : Buffer × Nat}
    (hinv : NumInv b) (h : b.AllocateOffset n = some r) :
    NumInv r.1 ∧ r.1.offset = b.offset + n ∧ r.1.maxSz = b.maxSz ∧ r.2 = b.offset := by
  rw [Buffer.AllocateOffset] at h
  rcases hG : b.Grow n with _ | b1
  · rw [hG] at h; exact absurd h (by simp)
  rw [hG] at h
  obtain ⟨⟨i1, i2, i3⟩, e1, e2, _, e4, e5, _⟩ := Grow_num hinv hG
  obtain rfl : ({ b1 with offset := b1.offset + n }, b1.offset) = r := by
    simpa using h
  exact ⟨⟨by simp; omega, by simp; omega, by simp; omega⟩, by simp; omega, by simp; omega,
    by simp; omega⟩

theorem writeLen_num {b : Buffer} {sz : Nat} {b' : Buffer}
    (hinv : NumInv b) (h : b.writeLen sz = some b') :
    NumInv b' ∧ b'.offset = b.offset + 4 ∧ b'.maxSz = b.maxSz := by
  rw [Buffer.writeLen] at h
  rcases hA : b.AllocateOffset 4 with _ | r
  · rw [hA] at h; exact absurd h (by simp)
  rw [hA] at h
  obtain ⟨⟨i1, i2, i3⟩, e1, e2, _⟩ := AllocateOffset_num hinv hA
  obtain rfl : ({ r.1 with buf := writeBytes r.1.buf r.2 (be32 sz) } : Buffer) = b' := by
    simpa using h
  exact ⟨⟨by simpa using i1, by simpa using i2, by simpa using i3⟩, by simpa using e1,
    by simpa using e2⟩

theorem SliceAllocate_num {b : Buffer} {sz : Nat} {r : Buffer × Nat}
    (hinv : NumInv b) (h : b.SliceAllocate sz = some r) :
    NumInv r.1 ∧ r.1.offset = b.offset + 4 + sz ∧ r.1.maxSz = b.maxSz := by
  rw [Buffer.SliceAllocate] at h
  rcases hG : b.Grow (4 + sz) with _ | b1
  · rw [hG] at h; exact absurd h (by simp)
  rw [hG] at h
  simp only [Option.bind_eq_bind, Option.some_bind] at h
  obtain ⟨hi1, e1, e2, _⟩ := Grow_num hinv hG
  rcases hW : b1.writeLen sz with _ | b2
  · rw [hW] at h; exact absurd h (by simp)
  rw [hW] at h
  simp only [Option.some_bind] at h
  obtain ⟨hi2, f1, f2⟩ := writeLen_num hi1 hW
  obtain ⟨hi3, g1, g2, _⟩ := AllocateOffset_num hi2 h
  exact ⟨hi3, by omega, by omega⟩

theorem WriteSlice_num {b : Buffer} {p : List Nat} {b' : Buffer}
    (hinv : NumInv b) (h : b.WriteSlice p = some b') :
    NumInv b' ∧ b'.offset = b.offset + 4 + p.length ∧ b'.maxSz = b.maxSz := by
  rw [Buffer.WriteSlice] at h
  rcases hS : b.SliceAllocate p.length with _ | r
  · rw [hS] at h; exact absurd h (by simp)
  rw [hS] at h
  obtain ⟨⟨i1, i2, i3⟩, e1, e2⟩ := SliceAllocate_num hinv hS
  obtain rfl : ({ r.1 with buf := writeBytes r.1.buf r.2 p } : Buffer) = b' := by
    simpa using h
  exact ⟨⟨by simpa using i1, by simpa using i2, by simpa using i3⟩, by simpa using e1,
    by simpa using e2⟩

/-- Concrete buffer for the C3/C4 counterexamples:
`NewBufferWith(64, 100, UseCalloc)`. -/
def c3Buf : Buffer :=
  { buf := List.replicate 64 0, offset := 1, curSz := 64, maxSz := 100,
    bufType := .UseCalloc, autoMmapAfter := 0 }

/-- C3 counterexample: the claimed invariant `1 ≤ offset ≤ curSz ≤ maxSz`
is not preserved by `Grow`.  On the freshly constructed buffer with
`curSz = 64`, `maxSz = 100` (where the invariant holds), `Grow 80` is
legal (`offset + 80 ≤ maxSz`) yet leaves `curSz = 208 > maxSz = 100`. -/
theorem C3_counterexample :
    NewBufferWith 64 100 .UseCalloc = some c3Buf ∧
      (1 ≤ c3Buf.offset ∧ c3Buf.offset ≤ c3Buf.curSz ∧ c3Buf.curSz ≤ c3Buf.maxSz) ∧
      c3Buf.offset + 80 ≤ c3Buf.maxSz ∧
      (c3Buf.Grow 80).map (fun b => decide (b.curSz ≤ b.maxSz)) = some false := by
  refine ⟨by decide, by decide, by decide, ?_⟩
  decide

/-- C3 (amended): construction and every buffer operation establish or
preserve `1 ≤ offset ∧ offset ≤ curSz ∧ offset ≤ maxSz`; the
`curSz ≤ maxSz` part of the spec invariant is dropped, since `Grow` may
overshoot `maxSz` (and `NewBufferWith` never compares `sz` with `maxSz`). -/
theorem C3_invariant :
    (∀ sz mx t b, NewBufferWith sz mx t = some b → NumInv b) ∧
    (∀ (b : Buffer) n b', NumInv b → b.Grow n = some b' → NumInv b') ∧
    (∀ (b : Buffer) n r, NumInv b → b.Allocate n = some r → NumInv r.1) ∧
    (∀ (b : Buffer) n r, NumInv b → b.AllocateOffset n = some r → NumInv r.1) ∧
    (∀ (b : Buffer) p b', NumInv b → b.Write p = some b' → NumInv b') ∧
    (∀ (b : Buffer) p b', NumInv b → b.WriteSlice p = some b' → NumInv b') ∧
    (∀ b : Buffer, NumInv b → NumInv b.Reset) := by
  refine ⟨?_, ?_, ?_, ?_, ?_, ?_, ?_⟩
  · intro sz mx t b h
    rw [NewBufferWith.eq_def] at h
    rcases t with _ | _ | _ <;> simp only at h
    · injection h with h
      subst h
      refine ⟨by simp, by simp [smallBufferSize]; split <;> omega,
        by simp [maxInt32]; split <;> omega⟩
    · injection h with h
      subst h
      refine ⟨by simp [Buffer.doMmap],
        by simp [Buffer.doMmap, smallBufferSize]; split <;> omega,
        by simp [Buffer.doMmap, maxInt32]; split <;> omega⟩
    · exact absurd h (by simp)
  · intro b n b' hi h
    exact (Grow_num hi h).1
  · intro b n r hi h
    rw [Buffer.Allocate] at h
    rcases hG : b.Grow n with _ | b1
    · rw [hG] at h; exact absurd h (by simp)
    rw [hG] at h
    obtain ⟨⟨i1, i2, i3⟩, e1, e2, _, e4, e5, _⟩ := Grow_num hi hG
    obtain rfl : ({ b1 with offset := b1.offset + n },
        extract b1.buf b1.offset (b1.offset + n)) = r := by simpa using h
    exact ⟨by simp; omega, by simp; omega, by simp; omega⟩
  · intro b n r hi h
    exact (AllocateOffset_num hi h).1
  · intro b p b' hi h
    rw [Buffer.Write] at h
    rcases hG : b.Grow p.length with _ | b1
    · rw [hG] at h; exact absurd h (by simp)
    rw [hG] at h
    obtain ⟨⟨i1, i2, i3⟩, e1, e2, _, e4, e5, _⟩ := Grow_num hi hG
    simp only [Option.map_some'] at h
    injection h with h
    subst h
    have hmin : min (b1.buf.length - b1.offset) p.length ≤ p.length :=
      Nat.min_le_right _ _
    exact ⟨by simp; omega, by simp; omega, by simp; omega⟩
  · intro b p b' hi h
    exact (WriteSlice_num hi h).1
  · intro b hi
    obtain ⟨i1, i2, i3⟩ := hi
    exact ⟨le_refl _, by simp [Buffer.Reset]; omega, by simp [Buffer.Reset]; omega⟩

/-- Result of `c3Buf.Grow 80`, for the C3 witness. -/
def c3Grown : Buffer :=
  { buf := List.replicate 208 0, offset := 1, curSz := 208, maxSz := 100,
    bufType := .UseCalloc, autoMmapAfter := 0 }

/-- C3 witness: the amended invariant instantiated on a concrete buffer and
a concrete `Grow`. -/
theorem C3_witness : NumInv c3Buf ∧ NumInv c3Grown :=
  ⟨by decide, C3_invariant.2.1 c3Buf 80 c3Grown (by decide) (by decide)⟩

/-- Buffer for the C4 counterexample: `NewBufferWith(5, 100, UseCalloc)`,
whose headroom `curSz - offset = 4` exactly covers a request of 4 bytes. -/
def c4Buf : Buffer :=
  { buf := List.replicate 5 0, offset := 1, curSz := 5, maxSz := 100,
    bufType := .UseCalloc, autoMmapAfter := 0 }

/-- Result of `c4Buf.Grow 4`. -/
def c4Grown : Buffer :=
  { buf := List.replicate 14 0, offset := 1, curSz := 14, maxSz := 100,
    bufType := .UseCalloc, autoMmapAfter := 0 }

/-- C4 counterexample: with headroom `curSz - offset = 4` exactly covering
`n = 4` (and `offset + n ≤ maxSz`), `Grow 4` is not a no-op — the code
only skips growth when the headroom strictly exceeds `n`.  It grows
`curSz` from 5 to 14 (by `max(4, min(5+4, 1GiB)) = 9`). -/
theorem C4_counterexample :
    NewBufferWith 5 100 .UseCalloc = some c4Buf ∧
      c4Buf.curSz - c4Buf.offset = 4 ∧ c4Buf.offset + 4 ≤ c4Buf.maxSz ∧
      c4Buf.Grow 4 = some c4Grown ∧ c4Grown.curSz ≠ c4Buf.curSz := by
  refine ⟨by decide, by decide, by decide, by decide, by decide⟩

/-- C4 (amended): for every buffer and `n` with `offset + n ≤ maxSz`,
`Grow n` is a no-op (the state is returned unchanged) whenever the
headroom `curSz - offset` strictly exceeds `n`; otherwise it increases
`curSz` by exactly `max(n, min(curSz + n, 1 GiB))` and leaves `offset`
and `maxSz` unchanged. -/
theorem C4_grow_policy (b : Buffer) (n : Nat) (h : b.offset + n ≤ b.maxSz) :
    (b.offset + n < b.curSz → b.Grow n = some b) ∧
    (b.curSz ≤ b.offset + n →
      ∃ b', b.Grow n = some b' ∧ b'.offset = b.offset ∧ b'.maxSz = b.maxSz ∧
        b'.curSz = b.curSz + max n (min (b.curSz + n) (2 ^ 30))) := by
  constructor
  · intro hlt
    rw [Buffer.Grow, if_neg (by omega), if_pos hlt]
  · intro hge
    rw [Buffer.Grow, if_neg (by omega), if_neg (by omega)]
    simp only
    repeat' split
    all_goals refine ⟨_, rfl, ?_, ?_, ?_⟩ <;> simp [Buffer.doMmap] <;> omega

/-- C4 witness: the amended policy at concrete inputs — a strict-headroom
no-op and an exact-headroom growth. -/
theorem C4_witness :
    c3Buf.Grow 4 = some c3Buf ∧
      ∃ b', c4Buf.Grow 4 = some b' ∧ b'.offset = c4Buf.offset ∧
        b'.maxSz = c4Buf.maxSz ∧
        b'.curSz = c4Buf.curSz + max 4 (min (c4Buf.curSz + 4) (2 ^ 30)) :=
  ⟨(C4_grow_policy c3Buf 4 (by decide)).1 (by decide),
    (C4_grow_policy c4Buf 4 (by decide)).2 (by decide)⟩

/-- C7: `Slice(offset)` returns the empty view and next-offset 0 at or past
the cursor; otherwise it decodes the 4-byte big-endian length `L` at
`offset`, returns the payload view `[offset+4, offset+4+L)` and the next
offset `offset+4+L`, collapsed to 0 once that position has reached the
cursor. -/
theorem C7_slice (b : Buffer) (off : Nat) :
    (b.offset ≤ off → b.Slice off = ([], 0)) ∧
    (off < b.offset →
      b.Slice off =
        ((b.buf.drop (off + 4)).take (readBE32 (b.buf.drop off)),
          if b.offset ≤ off + 4 + readBE32 (b.buf.drop off) then 0
          else off + 4 + readBE32 (b.buf.drop off))) := by
  constructor
  · intro h
    rw [Buffer.Slice, if_pos h]
  · intro h
    rw [Buffer.Slice, if_neg (by omega)]
    simp only [extract, Nat.add_sub_cancel_left]
    split <;> rfl

/-- Concrete buffer for the C7 witness: sentinel byte, then records
`[7]` (at offset 1) and `[8, 9]` (at offset 6); the cursor is 12. -/
def c7Buf : Buffer :=
  { buf := [0, 0, 0, 0, 1, 7, 0, 0, 0, 2, 8, 9], offset := 12, curSz := 12,
    maxSz := 100, bufType := .UseCalloc, autoMmapAfter := 0 }

/-- C7 witness: `Slice` evaluated at the cursor and at a live record. -/
theorem C7_witness : c7Buf.Slice 12 = ([], 0) ∧ c7Buf.Slice 1 = ([7], 6) := by
  refine ⟨(C7_slice c7Buf 12).1 (by decide), ?_⟩
  rw [(C7_slice c7Buf 1).2 (by decide)]
  decide

/-- C9: `Release` on a heap-backed buffer frees the region and reports
success; on an mmap-backed buffer it attempts unmap, truncate-to-zero,
close and delete in that order, stopping at the first failing step and
returning that step's error wrapped with the file name; the result is
always a returned value, never a process exit. -/
theorem C9_release (fname : String) (os : OsOutcomes) :
    Release .UseCalloc fname os = (.ok (), [.free]) ∧
    (Release .UseMmap fname os = (.ok (), [.munmap, .truncate, .close, .remove]) ↔
      os.munmapErr = none ∧ os.truncateErr = none ∧ os.closeErr = none ∧
        os.removeErr = none) ∧
    (∀ e, os.munmapErr = some e →
      Release .UseMmap fname os =
        (.error ("while munmap file " ++ fname ++ (": " ++ e)), [.munmap])) ∧
    (∀ e, os.munmapErr = none → os.truncateErr = some e →
      Release .UseMmap fname os =
        (.error ("while truncating file " ++ fname ++ (": " ++ e)),
          [.munmap, .truncate])) ∧
    (∀ e, os.munmapErr = none → os.truncateErr = none → os.closeErr = some e →
      Release .UseMmap fname os =
        (.error ("while closing file " ++ fname ++ (": " ++ e)),
          [.munmap, .truncate, .close])) ∧
    (∀ e, os.munmapErr = none → os.truncateErr = none → os.closeErr = none →
      os.removeErr = some e →
      Release .UseMmap fname os =
        (.error ("while deleting file " ++ fname ++ (": " ++ e)),
          [.munmap, .truncate, .close, .remove])) := by
  obtain ⟨m, t, c, r⟩ := os
  refine ⟨rfl, ?_, ?_, ?_, ?_, ?_⟩
  · cases m <;> cases t <;> cases c <;> cases r <;> simp [Release]
  · intro e he
    simp only at he
    simp [Release, he, wrapErr, String.append_assoc]
  · intro e h1 h2
    simp only at h1 h2
    simp [Release, h1, h2, wrapErr, String.append_assoc]
  · intro e h1 h2 h3
    simp only at h1 h2 h3
    simp [Release, h1, h2, h3, wrapErr, String.append_assoc]
  · intro e h1 h2 h3 h4
    simp only at h1 h2 h3 h4
    simp [Release, h1, h2, h3, h4, wrapErr, String.append_assoc]

/-- C9 witness: a full clean mmap release, and a failure at the truncate
step. -/
theorem C9_witness :
    Release .UseCalloc "f" ⟨none, none, none, none⟩ = (.ok (), [.free]) ∧
    Release .UseMmap "f" ⟨none, none, none, none⟩ =
      (.ok (), [.munmap, .truncate, .close, .remove]) ∧
    Release .UseMmap "f" ⟨none, some "boom", none, none⟩ =
      (.error ("while truncating file " ++ "f" ++ (": " ++ "boom")),
        [.munmap, .truncate]) := by
  refine ⟨(C9_release "f" ⟨none, none, none, none⟩).1, ?_, ?_⟩
  · exact (C9_release "f" ⟨none, none, none, none⟩).2.1.mpr ⟨rfl, rfl, rfl, rfl⟩
  · exact (C9_release "f" ⟨none, some "boom", none, none⟩).2.2.2.1 "boom" rfl rfl

/-- C10: `Clear` only rebinds the method's local copy of the receiver
pointer, so the encoded bitset is byte-for-byte unchanged and `Has`
answers exactly as before. -/
theorem C10_clear (f : List Nat) (h : Nat) :
    Bloom2Clear f = f ∧ Bloom2Has (Bloom2Clear f) h = Bloom2Has f h :=
  ⟨rfl, rfl⟩

/-! ## Bloom filter lemma kit -/

/-- Bit `p` of the encoded bit array is set. -/
def bitSet (f : List Nat) (p : Nat) : Prop :=
  Nat.testBit (f.getD (p / 8) 0) (p % 8)

instance (f : List Nat) (p : Nat) : Decidable (bitSet f p) := by
  unfold bitSet; infer_instance

/-- The sequence of bit positions one hash probes. -/
def probeSeq (delta nBits : Nat) : Nat → Nat → List Nat
  | 0, _ => []
  | j + 1, h => (h % nBits) :: probeSeq delta nBits j ((h + delta) % 2 ^ 32)

theorem getD_set_self {l : List Nat} {i : Nat} {x : Nat} (h : i < l.length) :
    (l.set i x).getD i 0 = x := by
  simp [List.getD, List.getElem?_set_self, h]

theorem getD_set_ne {l : List Nat} {i j : Nat} {x : Nat} (h : i ≠ j) :
    (l.set i x).getD j 0 = l.getD j 0 := by
  simp [List.getD, List.getElem?_set_ne h]

theorem length_setBit (f : List Nat) (p : Nat) :
    (setBit f p).length = f.length := List.length_set _ _ _

theorem bitSet_setBit_self {f : List Nat} {p : Nat} (h : p / 8 < f.length) :
    bitSet (setBit f p) p := by
  unfold bitSet setBit
  rw [getD_set_self h, Nat.one_shiftLeft, Nat.testBit_lor, Nat.testBit_two_pow]
  simp

theorem bitSet_setBit_mono {f : List Nat} {q p : Nat} (h : bitSet f q) :
    bitSet (setBit f p) q := by
  unfold bitSet setBit
  rcases eq_or_ne (p / 8) (q / 8) with he | hne
  · rcases Nat.lt_or_ge (p / 8) f.length with hl | hl
    · rw [he] at hl ⊢
      rw [getD_set_self hl, Nat.testBit_lor]
      have h' : Nat.testBit (f.getD (q / 8) 0) (q % 8) = true := h
      rw [Bool.or_eq_true]
      exact Or.inl h'
    · rw [List.set_eq_of_length_le hl]
      exact h
  · rw [getD_set_ne hne]
    exact h

theorem length_setProbes (delta nBits : Nat) :
    ∀ j h f, (bloomSetProbes delta nBits j h f).length = f.length := by
  intro j
  induction j with
  | zero => intro h f; rfl
  | succ j ih =>
      intro h f
      rw [bloomSetProbes, ih, length_setBit]

theorem setProbes_mono (delta nBits : Nat) :
    ∀ j h f q, bitSet f q → bitSet (bloomSetProbes delta nBits j h f) q := by
  intro j
  induction j with
  | zero => intro h f q hq; exact hq
  | succ j ih =>
      intro h f q hq
      exact ih _ _ _ (bitSet_setBit_mono hq)

theorem setProbes_sets (delta nBits : Nat) (hn : 0 < nBits) :
    ∀ j h f, nBits ≤ 8 * f.length →
      ∀ q ∈ probeSeq delta nBits j h, bitSet (bloomSetProbes delta nBits j h f) q := by
  intro j
  induction j with
  | zero => intro h f _ q hq; exact absurd hq (by simp [probeSeq])
  | succ j ih =>
      intro h f hlen q hq
      rw [probeSeq] at hq
      rw [bloomSetProbes]
      rcases List.mem_cons.mp hq with rfl | hq
      · refine setProbes_mono _ _ _ _ _ _ (bitSet_setBit_self ?_)
        have h1 : h % nBits < nBits := Nat.mod_lt _ hn
        omega
      · exact ih _ _ (by rw [length_setBit]; exact hlen) q hq

theorem land_two_pow_eq_zero_iff (x r : Nat) :
    x &&& 1 <<< r = 0 ↔ Nat.testBit x r = false := by
  rw [Nat.one_shiftLeft]
  constructor
  · intro h
    have := congrArg (fun n => Nat.testBit n r) h
    simpa [Nat.testBit_and, Nat.testBit_two_pow, Nat.zero_testBit] using this
  · intro h
    refine Nat.eq_of_testBit_eq fun i => ?_
    rw [Nat.testBit_and, Nat.testBit_two_pow, Nat.zero_testBit]
    rcases eq_or_ne r i with rfl | hne
    · simp [h]
    · simp [hne]

theorem checkProbes_of_bitSet (delta nBits : Nat) :
    ∀ j h f, (∀ q ∈ probeSeq delta nBits j h, bitSet f q) →
      bloomCheckProbes delta nBits j h f = true := by
  intro j
  induction j with
  | zero => intro h f _; rfl
  | succ j ih =>
      intro h f hall
      rw [bloomCheckProbes]
      have hhead : bitSet f (h % nBits) := hall _ (by rw [probeSeq]; exact List.mem_cons_self _ _)
      rw [if_neg]
      · exact ih _ _ fun q hq => hall q (by rw [probeSeq]; exact List.mem_cons_of_mem _ hq)
      · intro hzero
        rw [land_two_pow_eq_zero_iff] at hzero
        exact absurd hzero (by simpa [bitSet] using hhead)

theorem probeSeq_lt {delta nBits : Nat} (hn : 0 < nBits) :
    ∀ j h q, q ∈ probeSeq delta nBits j h → q < nBits := by
  intro j
  induction j with
  | zero => intro h q hq; exact absurd hq (by simp [probeSeq])
  | succ j ih =>
      intro h q hq
      rw [probeSeq] at hq
      rcases List.mem_cons.mp hq with rfl | hq
      · exact Nat.mod_lt _ hn
      · exact ih _ _ hq

/-- The `nBytes` the body of `Add` computes for a batch. -/
def bloomNBytes (hashes : List Nat) : Nat :=
  ((if hashes.length * 10 < 64 then 64 else hashes.length * 10) + 7) / 8

theorem Bloom2Add_eq (bitset : List Nat) (hashes : List Nat) :
    Bloom2Add bitset hashes =
      (hashes.foldl
        (fun f h => bloomSetProbes (bloomDelta h) (bloomNBytes hashes * 8) bloomK h f)
        (bloomExtend bitset (bloomNBytes hashes + 1))).set (bloomNBytes hashes)
        bloomK := rfl

theorem Bloom2Has_eq (f : List Nat) (h : Nat) (h2 : ¬ f.length < 2)
    (hk : ¬ 30 < f.getD (f.length - 1) 0) :
    Bloom2Has f h =
      bloomCheckProbes (bloomDelta h) (8 * (f.length - 1))
        (f.getD (f.length - 1) 0) h f := by
  rw [Bloom2Has, if_neg h2, if_neg hk]

theorem length_bloomExtend (b : List Nat) (n : Nat) :
    (bloomExtend b n).length = max b.length n := by
  rw [bloomExtend]
  split <;> simp <;> omega

theorem length_foldl_setProbes (nBits k : Nat) (hashes : List Nat) :
    ∀ f : List Nat,
      (hashes.foldl (fun f h => bloomSetProbes (bloomDelta h) nBits k h f) f).length =
        f.length := by
  induction hashes with
  | nil => intro f; rfl
  | cons a as ih =>
      intro f
      rw [List.foldl_cons, ih, length_setProbes]

theorem foldl_setProbes_mono (nBits k : Nat) (hashes : List Nat) :
    ∀ f q, bitSet f q →
      bitSet (hashes.foldl (fun f h => bloomSetProbes (bloomDelta h) nBits k h f) f) q := by
  induction hashes with
  | nil => intro f q hq; exact hq
  | cons a as ih =>
      intro f q hq
      rw [List.foldl_cons]
      exact ih _ _ (setProbes_mono _ _ _ _ _ _ hq)

theorem foldl_setProbes_sets (nBits k : Nat) (hn : 0 < nBits) (hashes : List Nat) :
    ∀ f, nBits ≤ 8 * f.length → ∀ h ∈ hashes,
      ∀ q ∈ probeSeq (bloomDelta h) nBits k h,
        bitSet (hashes.foldl (fun f h => bloomSetProbes (bloomDelta h) nBits k h f) f) q := by
  induction hashes with
  | nil => intro f _ h hmem; exact absurd hmem (by simp)
  | cons a as ih =>
      intro f hlen h hmem q hq
      rw [List.foldl_cons]
      rcases List.mem_cons.mp hmem with rfl | hmem
      · exact foldl_setProbes_mono _ _ _ _ _
          (setProbes_sets _ _ hn _ _ _ hlen _ hq)
      · exact ih _ (by rw [length_setProbes]; exact hlen) h hmem q hq

theorem length_Bloom2Add {bitset : List Nat} (hashes : List Nat)
    (hsmall : bitset.length ≤ bloomNBytes hashes + 1) :
    (Bloom2Add bitset hashes).length = bloomNBytes hashes + 1 := by
  rw [Bloom2Add_eq, List.length_set, length_foldl_setProbes, length_bloomExtend]
  omega

theorem trailing_Bloom2Add {bitset : List Nat} (hashes : List Nat)
    (hsmall : bitset.length ≤ bloomNBytes hashes + 1) :
    (Bloom2Add bitset hashes).getD ((Bloom2Add bitset hashes).length - 1) 0 =
      bloomK := by
  rw [length_Bloom2Add hashes hsmall, Nat.add_sub_cancel, Bloom2Add_eq]
  refine getD_set_self ?_
  rw [length_foldl_setProbes, length_bloomExtend]
  omega

/-- Core of the no-false-negative property: when the previous bitset is no
longer than the geometry this `Add` derives, `Has` and `Add` agree on the
bit-array size and every hash of the batch is found afterwards. -/
theorem bloomHas_add_mem {bitset : List Nat} {hashes : List Nat} {h : Nat}
    (hmem : h ∈ hashes) (hsmall : bitset.length ≤ bloomNBytes hashes + 1) :
    Bloom2Has (Bloom2Add bitset hashes) h = true := by
  have hk6 : bloomK = 6 := by decide
  have hnb8 : 8 ≤ bloomNBytes hashes := by
    rw [bloomNBytes]; split <;> omega
  have hlen0 : (bloomExtend bitset (bloomNBytes hashes + 1)).length =
      bloomNBytes hashes + 1 := by
    rw [length_bloomExtend]; omega
  have hlen2 : (Bloom2Add bitset hashes).length = bloomNBytes hashes + 1 :=
    length_Bloom2Add hashes hsmall
  have hgetk := trailing_Bloom2Add hashes hsmall
  rw [Bloom2Has_eq _ _ (by omega) (by rw [hgetk, hk6]; omega), hgetk, hlen2,
    Nat.add_sub_cancel, Bloom2Add_eq]
  refine checkProbes_of_bitSet _ _ _ _ _ fun q hq => ?_
  have hq' : q ∈ probeSeq (bloomDelta h) (bloomNBytes hashes * 8) bloomK h := by
    rwa [Nat.mul_comm] at hq
  have hqlt : q < bloomNBytes hashes * 8 :=
    probeSeq_lt (by omega) _ _ _ hq'
  have hbit : bitSet (hashes.foldl
      (fun f h => bloomSetProbes (bloomDelta h) (bloomNBytes hashes * 8) bloomK h f)
      (bloomExtend bitset (bloomNBytes hashes + 1))) q :=
    foldl_setProbes_sets _ _ (by omega) _ _ (by rw [hlen0]; omega) h hmem q hq'
  unfold bitSet at hbit ⊢
  rwa [getD_set_ne (by omega)]

/-- C5: adding a batch of hashes to a fresh filter leaves no false
negatives — a subsequent `Has` on any hash of the batch answers true.
(`NewFilter`/`extend` are not under src/ and are modelled from the spec.) -/
theorem C5_no_false_negatives (hashes : List Nat) (h : Nat) (hmem : h ∈ hashes)
    (hbound : ∀ x ∈ hashes, x < 2 ^ 32) :
    Bloom2Has (Bloom2Add NewBloomFilter2 hashes) h = true := by
  refine bloomHas_add_mem hmem ?_
  have h9 : NewBloomFilter2.length = 9 := by decide
  have hnb8 : 8 ≤ bloomNBytes hashes := by
    rw [bloomNBytes]; split <;> omega
  omega

/-- C5 witness: the filter built from one `Add([1,2,3])` on a fresh filter
answers true on 2. -/
theorem C5_witness : Bloom2Has (Bloom2Add NewBloomFilter2 [1, 2, 3]) 2 = true :=
  C5_no_false_negatives [1, 2, 3] 2 (by decide) (by decide)

/-- C6 counterexample: `Add` derives and stores `k = 6` (the trailing byte
of the filter built by a fresh `Add`), but the claimed formula
`clamp(round(bitsPerKey * ln 2), 1, 30)` with `bitsPerKey = 10` evaluates
to 7: the code truncates `10 * 0.69`, it does not round `10 * ln 2`. -/
theorem C6_counterexample :
    (Bloom2Add NewBloomFilter2 [5]).getD
        ((Bloom2Add NewBloomFilter2 [5]).length - 1) 0 = 6 ∧
      max 1 (min 30 (round ((10 : ℝ) * Real.log 2))) = 7 := by
  constructor
  · decide
  · have h1 := Real.log_two_gt_d9
    have h2 := Real.log_two_lt_d9
    have hr : round ((10 : ℝ) * Real.log 2) = 7 := by
      rw [round_eq]
      have : ⌊(10 : ℝ) * Real.log 2 + 1 / 2⌋ = 7 := by
        refine Int.floor_eq_iff.mpr ⟨by push_cast; nlinarith, by push_cast; nlinarith⟩
      exact this
    rw [hr]
    decide

/-- C6 (amended): the per-key probe count `Add` uses and stores in the
trailing byte is `clamp(trunc(bitsPerKey * 0.69), 1, 30) = 6` for the
hard-coded `bitsPerKey = 10` — truncation of an `0.69`-approximation of
ln 2, not rounding of `bitsPerKey * ln 2`.  (`Bloom2Add_eq` shows the same
`bloomK` drives the probe loop.) -/
theorem C6_probe_count (hashes : List Nat) :
    (Bloom2Add NewBloomFilter2 hashes).getD
        ((Bloom2Add NewBloomFilter2 hashes).length - 1) 0 = bloomK ∧
      bloomK = max 1 (min 30 (10 * 69 / 100)) ∧ bloomK = 6 := by
  refine ⟨?_, by decide, by decide⟩
  refine trailing_Bloom2Add hashes ?_
  have h9 : NewBloomFilter2.length = 9 := by decide
  have hnb8 : 8 ≤ bloomNBytes hashes := by
    rw [bloomNBytes]; split <;> omega
  omega

/-- Bitset for the C8 counterexample: 16 zero bytes and a trailing probe
count 1 (any byte string is a reachable filter state via the JSON
deserialisation `JSONUnmarshal2`). -/
def c8Buf : List Nat := List.replicate 16 0 ++ [1]

/-- C8 counterexample: from the filter state `c8Buf`, `AddIfNotHas 64`
adds (returns true), yet a second `AddIfNotHas 64` adds again — it
returns true and mutates — because this `Add` writes its probe bits for a
64-bit array and its `k` at byte 8, while `Has` on the 17-byte buffer
reads a 128-bit geometry.  The "calling AddIfNotHas twice makes the
second call return false without mutating" part of the claim fails for
general filter states. -/
theorem C8_counterexample :
    (Bloom2AddIfNotHas c8Buf 64).1 = true ∧
      Bloom2AddIfNotHas (Bloom2AddIfNotHas c8Buf 64).2 64 ≠
        (false, (Bloom2AddIfNotHas c8Buf 64).2) := by
  refine ⟨by decide, by decide⟩

/-- C8 (amended): whenever `Has f h` is already true, `AddIfNotHas f h`
returns false and leaves the encoded buffer byte-for-byte unchanged; and
starting from the fresh filter (rather than an arbitrary state), calling
`AddIfNotHas` twice with the same hash makes the second call return false
without mutating the buffer. -/
theorem C8_addIfNotHas :
    (∀ f h, Bloom2Has f h = true → Bloom2AddIfNotHas f h = (false, f)) ∧
    (∀ h : Nat, h < 2 ^ 32 →
      Bloom2AddIfNotHas (Bloom2AddIfNotHas NewBloomFilter2 h).2 h =
        (false, (Bloom2AddIfNotHas NewBloomFilter2 h).2)) := by
  have hpart1 : ∀ f h, Bloom2Has f h = true → Bloom2AddIfNotHas f h = (false, f) := by
    intro f h hh
    rw [Bloom2AddIfNotHas, if_pos hh]
  refine ⟨hpart1, fun h _ => ?_⟩
  rcases hfirst : Bloom2Has NewBloomFilter2 h with _ | _
  · have h2 : (Bloom2AddIfNotHas NewBloomFilter2 h).2 = Bloom2Add NewBloomFilter2 [h] := by
      rw [Bloom2AddIfNotHas, if_neg (by rw [hfirst]; simp)]
    rw [h2]
    refine hpart1 _ _ (bloomHas_add_mem (List.mem_singleton_self h) ?_)
    have h9 : NewBloomFilter2.length = 9 := by decide
    have hnb8 : 8 ≤ bloomNBytes [h] := by rw [bloomNBytes]; split <;> omega
    omega
  · have h2 : (Bloom2AddIfNotHas NewBloomFilter2 h).2 = NewBloomFilter2 := by
      rw [Bloom2AddIfNotHas, if_pos hfirst]
    rw [h2]
    exact hpart1 _ _ hfirst

/-- C8 witness: a filter with every bit set answers true, so
`AddIfNotHas` declines to mutate it; and the fresh double-add at hash 64. -/
theorem C8_witness :
    Bloom2AddIfNotHas (List.replicate 8 255 ++ [6]) 3 =
        (false, List.replicate 8 255 ++ [6]) ∧
      Bloom2AddIfNotHas (Bloom2AddIfNotHas NewBloomFilter2 64).2 64 =
        (false, (Bloom2AddIfNotHas NewBloomFilter2 64).2) :=
  ⟨C8_addIfNotHas.1 (List.replicate 8 255 ++ [6]) 3 (by decide),
    C8_addIfNotHas.2 64 (by decide)⟩

/-! ## Record chains (claims C2, C1) -/

/-- The stored form of one record: 4-byte big-endian length prefix, then
the payload. -/
def encRec (p : List Nat) : List Nat := be32 p.length ++ p

/-- The stored form of a sequence of records. -/
def encChain : List (List Nat) → List Nat
  | [] => []
  | p :: ps => encRec p ++ encChain ps

/-- Every payload length fits the uint32 length prefix. -/
def GoodLens (rs : List (List Nat)) : Prop := ∀ p ∈ rs, p.length < 2 ^ 32

/-- The start offsets of the records of a chain laid out from `pos`. -/
def chainOffsets (pos : Nat) : List (List Nat) → List Nat
  | [] => []
  | p :: ps => pos :: chainOffsets (pos + (4 + p.length)) ps

/-- `WriteSlice` for each payload in order (the claim's append sequence). -/
def Buffer.WriteSlices (b : Buffer) (ps : List (List Nat)) : Option Buffer :=
  ps.foldlM Buffer.WriteSlice b

theorem length_encRec (p : List Nat) : (encRec p).length = 4 + p.length := by
  simp [encRec, be32]
  omega

theorem encChain_append (xs ys : List (List Nat)) :
    encChain (xs ++ ys) = encChain xs ++ encChain ys := by
  induction xs with
  | nil => rfl
  | cons p xs ih => simp [encChain, ih]

theorem length_encChain_ge (rs : List (List Nat)) :
    rs.length ≤ (encChain rs).length := by
  induction rs with
  | nil => simp [encChain]
  | cons p rs ih => simp [encChain, length_encRec]; omega

theorem segAt_nil {buf : List Nat} {pos : Nat} (h : pos ≤ buf.length) :
    SegAt buf pos [] := ⟨by simpa using h, by simp⟩

/-- Calloc-backend state invariant used along a `WriteSlice` sequence. -/
def BInv (b : Buffer) : Prop :=
  1 ≤ b.offset ∧ b.offset ≤ b.curSz ∧ b.offset ≤ b.maxSz ∧
    b.buf.length = b.curSz ∧ b.bufType = .UseCalloc ∧ b.autoMmapAfter = 0

instance (b : Buffer) : Decidable (BInv b) := by
  unfold BInv; infer_instance

/-- Effect of a successful `Grow` on a calloc buffer: the numeric facts of
`Grow_num` plus preservation of the written prefix and of the
backend/type fields, and the length law. -/
theorem Grow_calloc {b : Buffer} {n : Nat} {b' : Buffer}
    (hinv : BInv b) (h : b.Grow n = some b') :
    BInv b' ∧ b'.offset = b.offset ∧ b'.maxSz = b.maxSz ∧
      b.offset + n ≤ b'.curSz ∧ b.offset + n ≤ b.maxSz ∧
      b'.buf.take b.offset = b.buf.take b.offset := by
  obtain ⟨h1, h2, h3, h4, h5, h6⟩ := hinv
  rw [Buffer.Grow] at h
  split at h
  · exact absurd h (by simp)
  rename_i hmax
  split at h
  · rename_i hno
    obtain rfl : b = b' := by simpa using h
    exact ⟨⟨h1, h2, h3, h4, h5, h6⟩, rfl, rfl, by omega, by omega, rfl⟩
  rename_i hgrow
  simp only [h5] at h
  rw [if_neg (by simp [h6])] at h
  injection h with h
  subst h
  have hwz : ∀ (Z q : List Nat), q.length ≤ Z.length →
      writeBytes Z 0 q = q ++ Z.drop q.length := by
    intro Z q hle
    rw [writeBytes_of_fit _ _ _ (by omega)]
    simp
  refine ⟨⟨h1, ?_, h3, ?_, rfl, h6⟩, rfl, rfl, ?_, by omega, ?_⟩
  · simp only
    repeat' split
    all_goals omega
  · simp only [length_writeBytes, List.length_replicate]
  · simp only
    repeat' split
    all_goals omega
  · simp only
    rw [hwz _ _ (by simp; omega)]
    rw [List.take_append_of_le_length (by simp; omega)]
    rw [List.take_take, Nat.min_self]

theorem take_eq_down {buf buf' : List Nat} {m q : Nat}
    (h : buf'.take m = buf.take m) (hq : q ≤ m) : buf'.take q = buf.take q := by
  have h1 : buf'.take q = (buf'.take m).take q := by
    rw [List.take_take, Nat.min_eq_left hq]
  have h2 : buf.take q = (buf.take m).take q := by
    rw [List.take_take, Nat.min_eq_left hq]
  rw [h1, h2, h]

theorem segAt_of_take_le {buf buf' : List Nat} {m q : Nat} {s : List Nat}
    (hs : SegAt buf q s) (htake : buf'.take m = buf.take m)
    (hm : q + s.length ≤ m) (hmb : m ≤ buf.length) : SegAt buf' q s := by
  have hlen : m ≤ buf'.length := by
    have := congrArg List.length htake
    simp only [List.length_take] at this
    omega
  refine segAt_iff_ex.mpr ⟨by omega, ?_⟩
  rw [extract_eq_of_take_eq htake hm]
  exact hs.extract_eq

theorem AllocateOffset_calloc {b : Buffer} {n : Nat} {r : Buffer × Nat}
    (hinv : BInv b) (h : b.AllocateOffset n = some r) :
    BInv r.1 ∧ r.1.offset = b.offset + n ∧ r.1.maxSz = b.maxSz ∧ r.2 = b.offset ∧
      r.1.buf.take b.offset = b.buf.take b.offset ∧
      b.offset + n ≤ r.1.buf.length := by
  rw [Buffer.AllocateOffset] at h
  rcases hG : b.Grow n with _ | b1
  · rw [hG] at h; exact absurd h (by simp)
  rw [hG] at h
  obtain ⟨⟨i1, i2, i3, i4, i5, i6⟩, e1, e2, e4, e5, e6⟩ := Grow_calloc hinv hG
  injection h with h
  subst h
  exact ⟨⟨by simp; omega, by simp; omega, by simp; omega, by simpa using i4,
      by simpa using i5, by simpa using i6⟩, by simp; omega, by simpa using e2,
    by simp; omega, e6, by simp; omega⟩

theorem writeLen_calloc {b : Buffer} {sz : Nat} {b' : Buffer}
    (hinv : BInv b) (h : b.writeLen sz = some b') :
    BInv b' ∧ b'.offset = b.offset + 4 ∧ b'.maxSz = b.maxSz ∧
      b'.buf.take b.offset = b.buf.take b.offset ∧
      SegAt b'.buf b.offset (be32 sz) := by
  rw [Buffer.writeLen] at h
  rcases hA : b.AllocateOffset 4 with _ | r
  · rw [hA] at h; exact absurd h (by simp)
  rw [hA] at h
  obtain ⟨⟨i1, i2, i3, i4, i5, i6⟩, e1, e2, e4, e5, e6⟩ := AllocateOffset_calloc hinv hA
  injection h with h
  subst h
  have hofflen : r.2 + 4 ≤ r.1.buf.length := by
    rw [e4, i4]
    omega
  refine ⟨⟨by simpa using i1, by simp; omega, by simp; omega, ?_,
      by simpa using i5, by simpa using i6⟩, by simp; omega, by simpa using e2, ?_, ?_⟩
  · simp only [length_writeBytes]
    exact i4
  · simp only
    rw [take_writeBytes (by omega) (by omega)]
    exact e5
  · simp only
    rw [← e4]
    have := @segAt_writeBytes_self r.1.buf r.2 (be32 sz)
      (by rw [length_be32]; omega)
    exact this

theorem SliceAllocate_calloc {b : Buffer} {sz : Nat} {r : Buffer × Nat}
    (hinv : BInv b) (h : b.SliceAllocate sz = some r) :
    BInv r.1 ∧ r.2 = b.offset + 4 ∧ r.1.offset = b.offset + 4 + sz ∧
      r.1.maxSz = b.maxSz ∧ r.1.buf.take b.offset = b.buf.take b.offset ∧
      SegAt r.1.buf b.offset (be32 sz) ∧ b.offset + 4 + sz ≤ r.1.buf.length := by
  rw [Buffer.SliceAllocate] at h
  rcases hG : b.Grow (4 + sz) with _ | b1
  · rw [hG] at h; exact absurd h (by simp)
  rw [hG] at h
  simp only [Option.bind_eq_bind, Option.some_bind] at h
  obtain ⟨hi1, e1, e2, e4, e5, e6⟩ := Grow_calloc hinv hG
  rcases hW : b1.writeLen sz with _ | b2
  · rw [hW] at h; exact absurd h (by simp)
  rw [hW] at h
  simp only [Option.some_bind] at h
  obtain ⟨hi2, f1, f2, f4, f5⟩ := writeLen_calloc hi1 hW
  obtain ⟨hi3, g1, g2, g4, g5, g6⟩ := AllocateOffset_calloc hi2 h
  obtain ⟨j1, j2, j3, j4, j5, j6⟩ := hi3
  refine ⟨⟨j1, j2, j3, j4, j5, j6⟩, by omega, by omega, by omega, ?_, ?_, by omega⟩
  · rw [e1] at f4
    rw [take_eq_down g5 (by omega), f4, e6]
  · refine segAt_of_take_le (m := b2.offset) ?_ g5 ?_ ?_
    · rw [← e1]
      exact f5
    · rw [length_be32]
      omega
    · have h24 := hi2.2.2.2.1
      have h22 := hi2.2.1
      omega

theorem WriteSlice_calloc {b : Buffer} {p : List Nat} {b' : Buffer}
    (hinv : BInv b) (h : b.WriteSlice p = some b') :
    BInv b' ∧ b'.offset = b.offset + 4 + p.length ∧ b'.maxSz = b.maxSz ∧
      b'.buf.take b.offset = b.buf.take b.offset ∧
      SegAt b'.buf b.offset (encRec p) := by
  rw [Buffer.WriteSlice] at h
  rcases hS : b.SliceAllocate p.length with _ | r
  · rw [hS] at h; exact absurd h (by simp)
  rw [hS] at h
  obtain ⟨⟨i1, i2, i3, i4, i5, i6⟩, e1, e2, e3, e4, e5, e6⟩ := SliceAllocate_calloc hinv hS
  injection h with h
  subst h
  have hofflen : r.2 + p.length ≤ r.1.buf.length := by omega
  refine ⟨⟨by simpa using i1, by simp; omega, by simp; omega, ?_,
      by simpa using i5, by simpa using i6⟩, by simp; omega, by simpa using e3, ?_, ?_⟩
  · simp only [length_writeBytes]
    exact i4
  · simp only
    rw [take_writeBytes (by omega) (by omega)]
    exact e4
  · simp only
    rw [encRec]
    refine SegAt.append ?_ ?_
    · refine e5.writeBytes_left ?_ (by omega)
      rw [length_be32]
      omega
    · rw [length_be32, ← e1]
      exact segAt_writeBytes_self (by omega)

/-- State invariant along a `WriteSlice` sequence: the arena holds exactly
the chain of the payloads written so far, starting at offset 1, and the
cursor sits at its end. -/
def Chain2 (b : Buffer) (rs : List (List Nat)) : Prop :=
  BInv b ∧ b.offset = 1 + (encChain rs).length ∧ SegAt b.buf 1 (encChain rs)

theorem encChain_singleton (p : List Nat) : encChain [p] = encRec p := by
  simp [encChain]

theorem Chain2_writeSlice {b : Buffer} {rs : List (List Nat)} {p : List Nat}
    {b' : Buffer} (hc : Chain2 b rs) (h : b.WriteSlice p = some b') :
    Chain2 b' (rs ++ [p]) := by
  obtain ⟨hinv, hoff, hseg⟩ := hc
  obtain ⟨hinv', e1, e2, e4, e5⟩ := WriteSlice_calloc hinv h
  refine ⟨hinv', ?_, ?_⟩
  · rw [e1, hoff, encChain_append, encChain_singleton]
    simp [length_encRec]
    omega
  · rw [encChain_append, encChain_singleton]
    refine SegAt.append ?_ ?_
    · refine segAt_of_take_le hseg e4 (by omega) ?_
      have := hinv.2.2.2.1
      have := hinv.2.1
      omega
    · have : 1 + (encChain rs).length = b.offset := by omega
      rw [this]
      exact e5

theorem WriteSlices_chain :
    ∀ (ps : List (List Nat)) (b : Buffer) (rs : List (List Nat)) (b' : Buffer),
      Chain2 b rs → b.WriteSlices ps = some b' → Chain2 b' (rs ++ ps) := by
  intro ps
  induction ps with
  | nil =>
      intro b rs b' hc h
      obtain rfl : b = b' := by simpa [Buffer.WriteSlices] using h
      simpa using hc
  | cons p ps ih =>
      intro b rs b' hc h
      rw [Buffer.WriteSlices, List.foldlM_cons] at h
      rcases hW : b.WriteSlice p with _ | b1
      · rw [hW] at h; exact absurd h (by simp)
      rw [hW] at h
      simp only [Option.bind_eq_bind, Option.some_bind] at h
      have h1 := Chain2_writeSlice hc hW
      have h2 := ih b1 (rs ++ [p]) b' h1 h
      rwa [List.append_assoc, List.singleton_append] at h2

theorem NewBufferWith_chain {sz mx : Nat} {b0 : Buffer}
    (h : NewBufferWith sz mx .UseCalloc = some b0) : Chain2 b0 [] := by
  rw [NewBufferWith.eq_def] at h
  simp only at h
  injection h with h
  subst h
  have hlen : (writeBytes (List.replicate (if sz = 0 then smallBufferSize else sz) 0)
      0 [0]).length = (if sz = 0 then smallBufferSize else sz) := by
    rw [length_writeBytes, List.length_replicate]
  refine ⟨⟨by simp, by simp [smallBufferSize]; split <;> omega,
      by simp [maxInt32]; split <;> omega, by simpa using hlen, rfl, rfl⟩,
    by simp [encChain], ?_⟩
  refine segAt_nil ?_
  simp only [encChain]
  rw [hlen]
  simp [smallBufferSize]
  split <;> omega

/-- `Slice` at a record boundary of a well-formed chain returns exactly
that record's payload, and the next record's offset (0 once the cursor is
reached). -/
theorem Slice_at {b : Buffer} {pos : Nat} {p : List Nat} {rest : List (List Nat)}
    (hseg : SegAt b.buf pos (encChain (p :: rest)))
    (hlen : p.length < 2 ^ 32) (hpos : pos < b.offset) :
    b.Slice pos =
      (p, if b.offset ≤ pos + 4 + p.length then 0 else pos + 4 + p.length) := by
  have h1 : SegAt b.buf pos (encRec p) := by
    have hch : encChain (p :: rest) = encRec p ++ encChain rest := rfl
    exact SegAt.append_left (hch ▸ hseg)
  have hsz : readBE32 (b.buf.drop pos) = p.length := by
    have hd := h1.drop_eq
    rw [encRec, List.append_assoc] at hd
    rw [hd, readBE32_append]
    exact Nat.mod_eq_of_lt hlen
  have hp : SegAt b.buf (pos + 4) p := by
    have h2 := h1
    rw [encRec] at h2
    have h3 := h2.append_right
    rwa [length_be32] at h3
  rw [Buffer.Slice, if_neg (by omega)]
  simp only [hsz, hp.extract_eq]
  split <;> rfl

theorem sliceOffsetsAux_zero (b : Buffer) : ∀ fuel, sliceOffsetsAux b fuel 0 = [] := by
  intro fuel
  cases fuel <;> rfl

theorem sliceOffsetsAux_chain {b : Buffer} :
    ∀ (rs : List (List Nat)) (pos fuel : Nat),
      rs ≠ [] →
      SegAt b.buf pos (encChain rs) →
      pos + (encChain rs).length = b.offset →
      1 ≤ pos → GoodLens rs → rs.length + 1 ≤ fuel →
      sliceOffsetsAux b fuel pos = chainOffsets pos rs := by
  intro rs
  induction rs with
  | nil => intro pos fuel hne; exact absurd rfl hne
  | cons p rest ih =>
      intro pos fuel _ hseg hend hpos hgood hfuel
      have hlp : p.length < 2 ^ 32 := hgood p (List.mem_cons_self _ _)
      have hlch : (encChain (p :: rest)).length = (4 + p.length) + (encChain rest).length := by
        show (encRec p ++ encChain rest).length = _
        rw [List.length_append, length_encRec]
      have hposlt : pos < b.offset := by omega
      rcases fuel with _ | fuel
      · omega
      rw [sliceOffsetsAux, if_neg (by omega), Slice_at hseg hlp hposlt]
      rcases rest with _ | ⟨q, rest'⟩
      · have hnil : (encChain ([] : List (List Nat))).length = 0 := rfl
        have hnext : b.offset ≤ pos + 4 + p.length := by omega
        rw [if_pos hnext]
        simp only [sliceOffsetsAux_zero]
        rfl
      · have hq4 : 4 ≤ (encChain (q :: rest')).length := by
          show 4 ≤ (encRec q ++ encChain rest').length
          rw [List.length_append, length_encRec]
          omega
        rw [if_neg (by omega)]
        show pos :: sliceOffsetsAux b fuel (pos + 4 + p.length) =
          pos :: chainOffsets (pos + (4 + p.length)) (q :: rest')
        congr 1
        have harr : pos + 4 + p.length = pos + (4 + p.length) := by omega
        rw [harr]
        refine ih (pos + (4 + p.length)) fuel (by simp) ?_ (by omega) (by omega)
          (fun x hx => hgood x (List.mem_cons_of_mem _ hx)) (by simp at hfuel ⊢; omega)
        have hseg' := hseg.append_right (s := encRec p) (t := encChain (q :: rest'))
        rw [length_encRec] at hseg'
        exact hseg'

theorem map_slice_chainOffsets {b : Buffer} :
    ∀ (rs : List (List Nat)) (pos : Nat),
      SegAt b.buf pos (encChain rs) →
      pos + (encChain rs).length ≤ b.offset →
      GoodLens rs →
      (chainOffsets pos rs).map (fun o => (b.Slice o).1) = rs := by
  intro rs
  induction rs with
  | nil => intro pos _ _ _; rfl
  | cons p rest ih =>
      intro pos hseg hend hgood
      have hlp : p.length < 2 ^ 32 := hgood p (List.mem_cons_self _ _)
      have hlch : (encChain (p :: rest)).length = (4 + p.length) + (encChain rest).length := by
        show (encRec p ++ encChain rest).length = _
        rw [List.length_append, length_encRec]
      have hposlt : pos < b.offset := by omega
      rw [chainOffsets, List.map_cons, Slice_at hseg hlp hposlt]
      congr 1
      refine ih (pos + (4 + p.length)) ?_ (by omega)
        (fun x hx => hgood x (List.mem_cons_of_mem _ hx))
      have hseg' := hseg.append_right (s := encRec p) (t := encChain rest)
      rw [length_encRec] at hseg'
      exact hseg'

/-- Fresh buffer for the C2 counterexample and witness:
`NewBufferWith(5, 100, UseCalloc)`. -/
def c2Buf : Buffer :=
  { buf := List.replicate 5 0, offset := 1, curSz := 5, maxSz := 100,
    bufType := .UseCalloc, autoMmapAfter := 0 }

/-- C2 counterexample: on a fresh buffer with no records appended, the
walk of `SliceOffsets` still pushes its starting offset 1 before calling
`Slice`, so it returns `[1]`, and reading there yields one empty payload
`[[]]` — not the empty sequence the claim promises for the empty append
sequence. -/
theorem C2_counterexample :
    NewBufferWith 5 100 .UseCalloc = some c2Buf ∧
      c2Buf.WriteSlices [] = some c2Buf ∧
      (c2Buf.SliceOffsets).map (fun o => (c2Buf.Slice o).1) = [[]] ∧
      ([[]] : List (List Nat)) ≠ [] := by
  exact ⟨by decide, by decide, by decide, by decide⟩

/-- C2 (amended): for every non-empty sequence of payloads (each shorter
than 2^32, the record format's length domain) appended via `WriteSlice`
to a fresh buffer, `SliceOffsets` followed by `Slice` at each returned
offset reproduces exactly the appended payload bytes in order.  For the
empty sequence, `SliceOffsets` instead returns `[1]`, whose `Slice` is an
empty view. -/
theorem C2_roundtrip (sz mx : Nat) (b0 : Buffer) (ps : List (List Nat))
    (b : Buffer)
    (h0 : NewBufferWith sz mx .UseCalloc = some b0)
    (hne : ps ≠ [])
    (hlens : ∀ p ∈ ps, p.length < 2 ^ 32)
    (hw : b0.WriteSlices ps = some b) :
    (b.SliceOffsets).map (fun o => (b.Slice o).1) = ps := by
  have hchain := WriteSlices_chain ps b0 [] b (NewBufferWith_chain h0) hw
  rw [List.nil_append] at hchain
  obtain ⟨hinv, hoff, hseg⟩ := hchain
  have hfuel : ps.length + 1 ≤ b.offset + 1 := by
    have := length_encChain_ge ps
    omega
  rw [Buffer.SliceOffsets,
    sliceOffsetsAux_chain ps 1 (b.offset + 1) hne hseg (by omega) (le_refl 1)
      hlens hfuel]
  exact map_slice_chainOffsets ps 1 hseg (by omega) hlens

/-- Result of appending `[7]` and `[8, 9]` to `c2Buf`. -/
def c2Written : Buffer :=
  { buf := [0, 0, 0, 0, 1, 7, 0, 0, 0, 2, 8, 9, 0, 0, 0], offset := 12,
    curSz := 15, maxSz := 100, bufType := .UseCalloc, autoMmapAfter := 0 }

/-- C2 witness: the round-trip evaluated on the append sequence
`[[7], [8, 9]]`. -/
theorem C2_witness :
    (c2Written.SliceOffsets).map (fun o => (c2Written.Slice o).1) = [[7], [8, 9]] :=
  C2_roundtrip 5 100 c2Buf [[7], [8, 9]] c2Written (by decide) (by decide)
    (by decide) (by decide)

/-! ## Abstract merge and the comparator axioms (claim C1) -/

/-- `a` precedes-or-ties `b` under the comparator: `less b a` is false. -/
def cle (less : List Nat → List Nat → Bool) (a b : List Nat) : Prop :=
  less b a = false

/-- Asymmetry half of a strict weak ordering. -/
def Asymm (less : List Nat → List Nat → Bool) : Prop :=
  ∀ a b, less a b = true → less b a = false

/-- Transitivity of the induced `cle` (equivalent to transitivity of
incomparability plus transitivity for a strict weak ordering). -/
def CleTrans (less : List Nat → List Nat → Bool) : Prop :=
  ∀ a b c, less b a = false → less c b = false → less c a = false

/-- The abstract record merge `sortHelper.merge` computes: take from the
left while it compares strictly less, otherwise from the right. -/
def mergeLists (less : List Nat → List Nat → Bool) :
    List (List Nat) → List (List Nat) → List (List Nat)
  | [], ys => ys
  | x :: xs, [] => x :: xs
  | x :: xs, y :: ys =>
      if less x y then x :: mergeLists less xs (y :: ys)
      else y :: mergeLists less (x :: xs) ys
termination_by xs ys => xs.length + ys.length

theorem mergeLists_nil_left (less : List Nat → List Nat → Bool)
    (ys : List (List Nat)) : mergeLists less [] ys = ys := by
  cases ys <;> simp [mergeLists]

theorem mergeLists_nil_right (less : List Nat → List Nat → Bool)
    (xs : List (List Nat)) (hne : xs ≠ []) : mergeLists less xs [] = xs := by
  cases xs with
  | nil => exact absurd rfl hne
  | cons x xs => simp [mergeLists]

theorem mergeLists_perm (less : List Nat → List Nat → Bool) :
    ∀ xs ys, (mergeLists less xs ys).Perm (xs ++ ys) := by
  intro xs
  induction xs with
  | nil => intro ys; rw [mergeLists_nil_left]; simp
  | cons x xs ihx =>
      intro ys
      induction ys with
      | nil => rw [mergeLists_nil_right _ _ (by simp)]; simp
      | cons y ys ihy =>
          rw [mergeLists]
          split
          · exact (ihx (y :: ys)).cons x
          · refine ((ihy.cons y).trans ?_)
            have := @List.perm_middle _ y (x :: xs) ys
            exact this.symm

theorem mergeLists_length (less : List Nat → List Nat → Bool)
    (xs ys : List (List Nat)) :
    (mergeLists less xs ys).length = xs.length + ys.length := by
  have := (mergeLists_perm less xs ys).length_eq
  simpa using this

theorem mergeLists_sorted (less : List Nat → List Nat → Bool)
    (hA : Asymm less) (hT : CleTrans less) :
    ∀ xs ys, List.Pairwise (cle less) xs → List.Pairwise (cle less) ys →
      List.Pairwise (cle less) (mergeLists less xs ys) := by
  intro xs
  induction xs with
  | nil => intro ys _ hy; rwa [mergeLists_nil_left]
  | cons x xs ihx =>
      intro ys hx hy
      induction ys with
      | nil => rwa [mergeLists_nil_right _ _ (by simp)]
      | cons y ys ihy =>
          rw [mergeLists]
          obtain ⟨hxall, hxs⟩ := List.pairwise_cons.mp hx
          obtain ⟨hyall, hys⟩ := List.pairwise_cons.mp hy
          split
          · rename_i hlt
            refine List.pairwise_cons.mpr ⟨?_, ihx (y :: ys) hxs hy⟩
            intro a ha
            have hmem := (mergeLists_perm less xs (y :: ys)).mem_iff.mp ha
            rcases List.mem_append.mp hmem with hax | hay
            · exact hxall a hax
            · rcases List.mem_cons.mp hay with rfl | hay
              · exact hA x a hlt
              · exact hT _ _ _ (hA x y hlt) (hyall a hay)
          · rename_i hnlt
            have hyx : cle less y x := by
              simpa [cle] using hnlt
            refine List.pairwise_cons.mpr ⟨?_, ihy hys⟩
            intro a ha
            have hmem := (mergeLists_perm less (x :: xs) ys).mem_iff.mp ha
            rcases List.mem_append.mp hmem with hax | hay
            · rcases List.mem_cons.mp hax with rfl | hax
              · exact hyx
              · exact hT _ _ _ hyx (hxall a hax)
            · exact hyall a hay

theorem insertBy_perm {α : Type} (less : α → α → Bool) (x : α) :
    ∀ l : List α, (insertBy less x l).Perm (x :: l) := by
  intro l
  induction l with
  | nil => rfl
  | cons y ys ih =>
      rw [insertBy]
      split
      · rfl
      · exact (ih.cons y).trans (List.Perm.swap x y ys)

theorem sortBy_perm {α : Type} (less : α → α → Bool) :
    ∀ l : List α, (sortBy less l).Perm l := by
  intro l
  induction l with
  | nil => rfl
  | cons x xs ih =>
      rw [sortBy]
      exact (insertBy_perm less x (sortBy less xs)).trans (ih.cons x)

theorem insertBy_pairwise {α : Type} (less : α → α → Bool)
    (hA : ∀ a b : α, less a b = true → less b a = false)
    (hT : ∀ a b c : α, less b a = false → less c b = false → less c a = false)
    (x : α) :
    ∀ l : List α, List.Pairwise (fun a b => less b a = false) l →
      List.Pairwise (fun a b => less b a = false) (insertBy less x l) := by
  intro l
  induction l with
  | nil => intro _; simp [insertBy]
  | cons y ys ih =>
      intro hl
      obtain ⟨hyall, hys⟩ := List.pairwise_cons.mp hl
      rw [insertBy]
      split
      · rename_i hlt
        refine List.pairwise_cons.mpr ⟨?_, hl⟩
        intro a ha
        rcases List.mem_cons.mp ha with rfl | ha
        · exact hA x a hlt
        · exact hT _ _ _ (hA x y hlt) (hyall a ha)
      · rename_i hnlt
        have hyx : less x y = false := by simpa using hnlt
        refine List.pairwise_cons.mpr ⟨?_, ih hys⟩
        intro a ha
        have hmem := (insertBy_perm less x ys).mem_iff.mp ha
        rcases List.mem_cons.mp hmem with rfl | ha
        · exact hyx
        · exact hyall a ha

theorem sortBy_pairwise {α : Type} (less : α → α → Bool)
    (hA : ∀ a b : α, less a b = true → less b a = false)
    (hT : ∀ a b c : α, less b a = false → less c b = false → less c a = false) :
    ∀ l : List α, List.Pairwise (fun a b => less b a = false) (sortBy less l) := by
  intro l
  induction l with
  | nil => simp [sortBy]
  | cons x xs ih =>
      rw [sortBy]
      exact insertBy_pairwise less hA hT x _ ih

theorem length_encChain_cons (p : List Nat) (ps : List (List Nat)) :
    (encChain (p :: ps)).length = (4 + p.length) + (encChain ps).length := by
  show (encRec p ++ encChain ps).length = _
  rw [List.length_append, length_encRec]

theorem encChain_eq_flatten (rs : List (List Nat)) :
    encChain rs = (rs.map encRec).flatten := by
  induction rs with
  | nil => rfl
  | cons p ps ih => simp [encChain, ih]

theorem length_encChain_perm {rs rs' : List (List Nat)} (h : rs'.Perm rs) :
    (encChain rs').length = (encChain rs).length := by
  rw [encChain_eq_flatten, encChain_eq_flatten, List.length_flatten,
    List.length_flatten]
  exact ((h.map encRec).map List.length).sum_eq

theorem encChain_nil_of_length {rs : List (List Nat)}
    (h : (encChain rs).length = 0) : rs = [] := by
  cases rs with
  | nil => rfl
  | cons p ps =>
      rw [length_encChain_cons] at h
      omega

theorem encRec_drop4 (p : List Nat) : (encRec p).drop 4 = p := by
  rw [encRec]
  have h4 : (be32 p.length).length = 4 := length_be32 _
  rw [← h4, List.drop_left]

theorem rawSlice_encRec (p : List Nat) (rest : List Nat)
    (hlen : p.length < 2 ^ 32) :
    rawSlice (encRec p ++ rest) = encRec p := by
  rw [rawSlice, encRec, List.append_assoc, readBE32_append,
    Nat.mod_eq_of_lt hlen, ← List.append_assoc]
  have h1 : (4 + p.length) = (be32 p.length ++ p).length := by
    rw [List.length_append, length_be32]
  rw [h1, List.take_left]

theorem GoodLens_cons {p : List Nat} {ps : List (List Nat)} :
    GoodLens (p :: ps) ↔ p.length < 2 ^ 32 ∧ GoodLens ps := by
  constructor
  · intro h
    exact ⟨h p (List.mem_cons_self _ _), fun q hq => h q (List.mem_cons_of_mem _ hq)⟩
  · rintro ⟨h1, h2⟩ q hq
    rcases List.mem_cons.mp hq with rfl | hq
    · exact h1
    · exact h2 q hq

theorem GoodLens_perm {rs rs' : List (List Nat)} (hp : rs'.Perm rs)
    (h : GoodLens rs) : GoodLens rs' := fun q hq => h q (hp.mem_iff.mp hq)

theorem GoodLens_append {xs ys : List (List Nat)} :
    GoodLens (xs ++ ys) ↔ GoodLens xs ∧ GoodLens ys := by
  constructor
  · intro h
    exact ⟨fun q hq => h q (List.mem_append_left _ hq),
      fun q hq => h q (List.mem_append_right _ hq)⟩
  · rintro ⟨h1, h2⟩ q hq
    rcases List.mem_append.mp hq with hq | hq
    · exact h1 q hq
    · exact h2 q hq

/-- Loop invariant of `sortHelper.merge`: if the remaining left run is the
chain of `xs` (held in scratch), the remaining right run is the chain of
`ys` living at `[rpos, hoff)` in the buffer, and the destination cursor
sits `|encChain xs|` bytes before `rpos`, then the loop writes exactly the
chain of the abstract merge into `[start, hoff)` and touches nothing
outside it. -/
theorem mergeLoop_spec (less : List Nat → List Nat → Bool) :
    ∀ (n : Nat) (xs ys : List (List Nat)) (buf : List Nat)
      (start rpos hoff fuel : Nat) (r : List Nat),
      xs.length + ys.length = n →
      GoodLens xs → GoodLens ys →
      SegAt buf rpos (encChain ys) →
      rpos = start + (encChain xs).length →
      hoff = rpos + (encChain ys).length →
      hoff ≤ buf.length →
      n + 1 ≤ fuel →
      mergeLoop less fuel buf (encChain xs) rpos (encChain ys).length start hoff = r →
      r.length = buf.length ∧
        SegAt r start (encChain (mergeLists less xs ys)) ∧
        r.take start = buf.take start ∧ r.drop hoff = buf.drop hoff := by
  intro n
  induction n using Nat.strong_induction_on with
  | _ n ih =>
  intro xs ys buf start rpos hoff fuel r hn hgx hgy hrseg hrpos hhoff hbuf hfuel hr
  rcases fuel with _ | f
  · omega
  rw [mergeLoop] at hr
  by_cases hse : hoff ≤ start
  · rw [if_pos hse] at hr
    subst hr
    have hx0 : (encChain xs).length = 0 := by omega
    have hy0 : (encChain ys).length = 0 := by omega
    obtain rfl := encChain_nil_of_length hx0
    obtain rfl := encChain_nil_of_length hy0
    rw [mergeLists_nil_left]
    exact ⟨rfl, by simpa [encChain] using segAt_nil (show start ≤ buf.length by omega),
      rfl, rfl⟩
  rw [if_neg hse] at hr
  rcases xs with _ | ⟨x, xs'⟩
  · rw [if_pos (show (encChain ([] : List (List Nat))).length = 0 from rfl)] at hr
    subst hr
    rw [mergeLists_nil_left]
    have hstart : rpos = start := by
      simpa [encChain] using hrpos
    subst hstart
    have hex : extract buf rpos (rpos + (encChain ys).length) = encChain ys :=
      hrseg.extract_eq
    rw [hex, List.take_of_length_le (by omega)]
    refine ⟨length_writeBytes _ _ _, ?_, ?_, ?_⟩
    · have h1 := @segAt_writeBytes_self buf rpos (encChain ys) (by omega)
      exact h1
    · exact take_writeBytes (le_refl _) (by omega)
    · exact drop_writeBytes (by omega)
  rcases ys with _ | ⟨y, ys'⟩
  · rw [if_neg (by rw [length_encChain_cons]; omega),
      if_pos (show (encChain ([] : List (List Nat))).length = 0 from rfl)] at hr
    subst hr
    rw [mergeLists_nil_right _ _ (by simp)]
    have hhs : hoff = rpos := by
      simpa [encChain] using hhoff
    subst hhs
    rw [List.take_of_length_le (by omega)]
    refine ⟨length_writeBytes _ _ _, ?_, ?_, ?_⟩
    · have h1 := @segAt_writeBytes_self buf start (encChain (x :: xs'))
        (by omega)
      exact h1
    · exact take_writeBytes (le_refl _) (by omega)
    · exact drop_writeBytes (by omega)
  rw [if_neg (by rw [length_encChain_cons]; omega),
    if_neg (by rw [length_encChain_cons]; omega)] at hr
  obtain ⟨hgx1, hgx'⟩ := GoodLens_cons.mp hgx
  obtain ⟨hgy1, hgy'⟩ := GoodLens_cons.mp hgy
  have hls : rawSlice (encChain (x :: xs')) = encRec x := by
    show rawSlice (encRec x ++ encChain xs') = _
    exact rawSlice_encRec x _ hgx1
  have hex : extract buf rpos (rpos + (encChain (y :: ys')).length) =
      encChain (y :: ys') := hrseg.extract_eq
  have hrs : rawSlice (extract buf rpos (rpos + (encChain (y :: ys')).length)) =
      encRec y := by
    rw [hex]
    show rawSlice (encRec y ++ encChain ys') = _
    exact rawSlice_encRec y _ hgy1
  rw [hls, hrs] at hr
  simp only [encRec_drop4] at hr
  have hxlen : (encChain (x :: xs')).length = (4 + x.length) + (encChain xs').length :=
    length_encChain_cons x xs'
  have hylen : (encChain (y :: ys')).length = (4 + y.length) + (encChain ys').length :=
    length_encChain_cons y ys'
  have hrecx : (encRec x).length = 4 + x.length := length_encRec x
  have hrecy : (encRec y).length = 4 + y.length := length_encRec y
  by_cases hxy : less x y = true
  · rw [if_pos hxy] at hr
    have hdl : (encChain (x :: xs')).drop (encRec x).length = encChain xs' := by
      show (encRec x ++ encChain xs').drop (encRec x).length = _
      exact List.drop_left _ _
    rw [hdl] at hr
    have hwend : start + (encRec x).length ≤ rpos := by omega
    have hrseg1 : SegAt (writeBytes buf start (encRec x)) rpos (encChain (y :: ys')) :=
      hrseg.writeBytes_right hwend
    have hlen1 : (writeBytes buf start (encRec x)).length = buf.length :=
      length_writeBytes _ _ _
    have happ := ih (xs'.length + (y :: ys').length) (by simp at hn ⊢; omega)
      xs' (y :: ys') (writeBytes buf start (encRec x))
      (start + (encRec x).length) rpos hoff f r rfl hgx' hgy hrseg1
      (by omega) (by omega) (by omega) (by simp at hn ⊢; omega) hr
    obtain ⟨hq1, hq2, hq3, hq4⟩ := happ
    have hmeq : mergeLists less (x :: xs') (y :: ys') =
        x :: mergeLists less xs' (y :: ys') := by
      rw [mergeLists, if_pos hxy]
    refine ⟨by omega, ?_, ?_, ?_⟩
    · rw [hmeq]
      show SegAt r start (encRec x ++ encChain (mergeLists less xs' (y :: ys')))
      refine SegAt.append ?_ ?_
      · have hsegx : SegAt (writeBytes buf start (encRec x)) start (encRec x) :=
          segAt_writeBytes_self (by omega)
        exact segAt_of_take_le hsegx hq3 (le_refl _) (by omega)
      · exact hq2
    · have h1 : r.take start = (writeBytes buf start (encRec x)).take start :=
        take_eq_down hq3 (by omega)
      rw [h1, take_writeBytes (le_refl _) (by omega)]
    · rw [hq4, drop_writeBytes (by omega)]
  · rw [if_neg hxy] at hr
    have hrlen' : (encChain (y :: ys')).length - (encRec y).length =
        (encChain ys').length := by omega
    rw [hrlen'] at hr
    have hys : SegAt buf (rpos + (encRec y).length) (encChain ys') := by
      have h2 : SegAt buf rpos (encRec y ++ encChain ys') := hrseg
      exact h2.append_right
    have hrseg1 : SegAt (writeBytes buf start (encRec y))
        (rpos + (encRec y).length) (encChain ys') :=
      hys.writeBytes_right (by omega)
    have hlen1 : (writeBytes buf start (encRec y)).length = buf.length :=
      length_writeBytes _ _ _
    have happ := ih ((x :: xs').length + ys'.length) (by simp at hn ⊢; omega)
      (x :: xs') ys' (writeBytes buf start (encRec y))
      (start + (encRec y).length) (rpos + (encRec y).length) hoff f r rfl hgx hgy'
      hrseg1 (by omega) (by omega) (by omega) (by simp at hn ⊢; omega) hr
    obtain ⟨hq1, hq2, hq3, hq4⟩ := happ
    have hmeq : mergeLists less (x :: xs') (y :: ys') =
        y :: mergeLists less (x :: xs') ys' := by
      rw [mergeLists, if_neg hxy]
    refine ⟨by omega, ?_, ?_, ?_⟩
    · rw [hmeq]
      show SegAt r start (encRec y ++ encChain (mergeLists less (x :: xs') ys'))
      refine SegAt.append ?_ ?_
      · have hsegy : SegAt (writeBytes buf start (encRec y)) start (encRec y) :=
          segAt_writeBytes_self (by omega)
        exact segAt_of_take_le hsegy hq3 (le_refl _) (by omega)
      · exact hq2
    · have h1 : r.take start = (writeBytes buf start (encRec y)).take start :=
        take_eq_down hq3 (by omega)
      rw [h1, take_writeBytes (le_refl _) (by omega)]
    · rw [hq4, drop_writeBytes (by omega)]

/-- Specification of `sortHelper.merge`: two adjacent sorted-run regions
are replaced in place by the chain of their abstract merge. `hlseg` is
only needed for the early-out cases, where the buffer is returned with
the left run still in place. -/
theorem merge_spec (less : List Nat → List Nat → Bool)
    (xs ys : List (List Nat)) (buf : List Nat) (start rpos hoff : Nat)
    (r : List Nat)
    (hgx : GoodLens xs) (hgy : GoodLens ys)
    (hlseg : SegAt buf start (encChain xs))
    (hrseg : SegAt buf rpos (encChain ys))
    (hrpos : rpos = start + (encChain xs).length)
    (hhoff : hoff = rpos + (encChain ys).length)
    (hbuf : hoff ≤ buf.length)
    (hr : merge less buf (encChain xs) rpos (encChain ys).length start hoff = r) :
    r.length = buf.length ∧
      SegAt r start (encChain (mergeLists less xs ys)) ∧
      r.take start = buf.take start ∧ r.drop hoff = buf.drop hoff := by
  rw [merge] at hr
  rcases xs with _ | ⟨x, xs'⟩
  · rw [if_pos (show (encChain ([] : List (List Nat))).length = 0 ∨
      (encChain ys).length = 0 from Or.inl rfl)] at hr
    subst hr
    rw [mergeLists_nil_left]
    have hst : rpos = start := by simpa [encChain] using hrpos
    subst hst
    exact ⟨rfl, hrseg, rfl, rfl⟩
  rcases ys with _ | ⟨y, ys'⟩
  · rw [if_pos (show (encChain (x :: xs')).length = 0 ∨
      (encChain ([] : List (List Nat))).length = 0 from Or.inr rfl)] at hr
    subst hr
    rw [mergeLists_nil_right _ _ (by simp)]
    exact ⟨rfl, hlseg, rfl, rfl⟩
  rw [if_neg (by rw [length_encChain_cons, length_encChain_cons]; omega)] at hr
  have hgex := length_encChain_ge xs'
  have hgey := length_encChain_ge ys'
  have hcx := length_encChain_cons x xs'
  have hcy := length_encChain_cons y ys'
  refine mergeLoop_spec less ((x :: xs').length + (y :: ys').length)
    (x :: xs') (y :: ys') buf start rpos hoff (hoff - start) r rfl hgx hgy hrseg
    hrpos hhoff hbuf ?_ hr
  simp only [List.length_cons]
  omega

theorem collectSmallAux_chain {b : Buffer} :
    ∀ (rs : List (List Nat)) (pos end_ fuel : Nat),
      SegAt b.buf pos (encChain rs) →
      pos + (encChain rs).length = end_ →
      end_ ≤ b.offset → 1 ≤ pos → GoodLens rs →
      rs.length + 1 ≤ fuel →
      collectSmallAux b fuel pos end_ = chainOffsets pos rs := by
  intro rs
  induction rs with
  | nil =>
      intro pos end_ fuel _ hend _ _ _ hfuel
      rcases fuel with _ | f
      · omega
      rw [collectSmallAux, if_pos (Or.inr (by simp [encChain] at hend; omega))]
      rfl
  | cons p rest ih =>
      intro pos end_ fuel hseg hend hcur hpos hgood hfuel
      rcases fuel with _ | f
      · omega
      have hlp : p.length < 2 ^ 32 := hgood p (List.mem_cons_self _ _)
      have hlch := length_encChain_cons p rest
      have hposlt : pos < end_ := by omega
      rw [collectSmallAux, if_neg (by omega),
        Slice_at hseg hlp (by omega)]
      show pos :: collectSmallAux b f
          (if b.offset ≤ pos + 4 + p.length then 0 else pos + 4 + p.length) end_ =
        pos :: chainOffsets (pos + (4 + p.length)) rest
      congr 1
      rcases rest with _ | ⟨q, rest'⟩
      · have hnil : (encChain ([] : List (List Nat))).length = 0 := rfl
        have hpe : pos + 4 + p.length = end_ := by omega
        rcases f with _ | f'
        · simp at hfuel
        split
        · rw [collectSmallAux, if_pos (Or.inl rfl)]
          rfl
        · rw [collectSmallAux, if_pos (Or.inr (by omega))]
          rfl
      · have hq4 : 4 ≤ (encChain (q :: rest')).length := by
          rw [length_encChain_cons]
          omega
        rw [if_neg (by omega)]
        have harr : pos + 4 + p.length = pos + (4 + p.length) := by omega
        rw [harr]
        refine ih (pos + (4 + p.length)) end_ f ?_ (by omega) hcur (by omega)
          (fun x hx => hgood x (List.mem_cons_of_mem _ hx)) (by simp at hfuel ⊢; omega)
        have hseg' := hseg.append_right (s := encRec p) (t := encChain (q :: rest'))
        rwa [length_encRec] at hseg'

theorem sliceRangeAux_chain {b : Buffer} :
    ∀ (rs : List (List Nat)) (pos end_ fuel : Nat),
      SegAt b.buf pos (encChain rs) →
      pos + (encChain rs).length = end_ →
      end_ ≤ b.offset → 1 ≤ pos → GoodLens rs →
      rs.length + 1 ≤ fuel →
      sliceRangeAux b fuel pos end_ = rs := by
  intro rs
  induction rs with
  | nil =>
      intro pos end_ fuel _ hend _ _ _ hfuel
      rcases fuel with _ | f
      · omega
      rw [sliceRangeAux, if_pos (Or.inr (by simp [encChain] at hend; omega))]
  | cons p rest ih =>
      intro pos end_ fuel hseg hend hcur hpos hgood hfuel
      rcases fuel with _ | f
      · omega
      have hlp : p.length < 2 ^ 32 := hgood p (List.mem_cons_self _ _)
      have hlch := length_encChain_cons p rest
      have hposlt : pos < end_ := by omega
      rw [sliceRangeAux, if_neg (by omega), Slice_at hseg hlp (by omega)]
      show p :: sliceRangeAux b f
          (if b.offset ≤ pos + 4 + p.length then 0 else pos + 4 + p.length) end_ =
        p :: rest
      congr 1
      rcases rest with _ | ⟨q, rest'⟩
      · have hnil : (encChain ([] : List (List Nat))).length = 0 := rfl
        have hpe : pos + 4 + p.length = end_ := by omega
        rcases f with _ | f'
        · simp at hfuel
        split
        · rw [sliceRangeAux, if_pos (Or.inl rfl)]
        · rw [sliceRangeAux, if_pos (Or.inr (by omega))]
      · have hq4 : 4 ≤ (encChain (q :: rest')).length := by
          rw [length_encChain_cons]
          omega
        rw [if_neg (by omega)]
        have harr : pos + 4 + p.length = pos + (4 + p.length) := by omega
        rw [harr]
        refine ih (pos + (4 + p.length)) end_ f ?_ (by omega) hcur (by omega)
          (fun x hx => hgood x (List.mem_cons_of_mem _ hx)) (by simp at hfuel ⊢; omega)
        have hseg' := hseg.append_right (s := encRec p) (t := encChain (q :: rest'))
        rwa [length_encRec] at hseg'

theorem rawSliceDrop_chainOffsets {b : Buffer} :
    ∀ (rs : List (List Nat)) (pos : Nat),
      SegAt b.buf pos (encChain rs) →
      pos + (encChain rs).length ≤ b.offset →
      GoodLens rs →
      ∀ off ∈ chainOffsets pos rs,
        rawSlice (b.buf.drop off) = encRec ((b.Slice off).1) := by
  intro rs
  induction rs with
  | nil => intro pos _ _ _ off hoff; exact absurd hoff (by simp [chainOffsets])
  | cons p rest ih =>
      intro pos hseg hend hgood off hoff
      have hlp : p.length < 2 ^ 32 := hgood p (List.mem_cons_self _ _)
      have hlch := length_encChain_cons p rest
      rcases List.mem_cons.mp hoff with rfl | hoff
      · have hdrop : b.buf.drop off = encRec p ++
            (encChain rest ++ b.buf.drop (off + (encChain (p :: rest)).length)) := by
          have hd := hseg.drop_eq
          rw [hd]
          show encRec p ++ encChain rest ++ _ = _
          rw [List.append_assoc]
        rw [hdrop, rawSlice_encRec p _ hlp,
          Slice_at hseg hlp (by omega)]
      · have hseg' := hseg.append_right (s := encRec p) (t := encChain rest)
        rw [length_encRec] at hseg'
        exact ih (pos + (4 + p.length)) hseg' (by omega)
          (fun x hx => hgood x (List.mem_cons_of_mem _ hx)) off hoff

/-- Specification of `sortSmall`: the run `[start, end_)` is rewritten as
the chain of some comparator-sorted permutation of its records; nothing
else changes. -/
theorem sortSmall_spec (less : List Nat → List Nat → Bool)
    (hA : Asymm less) (hT : CleTrans less)
    {b : Buffer} {start end_ : Nat} {rs : List (List Nat)}
    (hseg : SegAt b.buf start (encChain rs))
    (hstart : 1 ≤ start)
    (hende : end_ = start + (encChain rs).length)
    (hend : end_ ≤ b.offset)
    (hcur : b.offset ≤ b.buf.length)
    (hgood : GoodLens rs) :
    ∃ rs', rs'.Perm rs ∧ List.Pairwise (cle less) rs' ∧
      (b.sortSmall less start end_).buf.length = b.buf.length ∧
      SegAt (b.sortSmall less start end_).buf start (encChain rs') ∧
      (b.sortSmall less start end_).buf.take start = b.buf.take start ∧
      (b.sortSmall less start end_).buf.drop end_ = b.buf.drop end_ ∧
      (b.sortSmall less start end_).offset = b.offset := by
  subst hende
  have hfuel : rs.length + 1 ≤ b.offset + 1 := by
    have := length_encChain_ge rs
    omega
  have hsmall := collectSmallAux_chain rs start (start + (encChain rs).length)
    (b.offset + 1) hseg rfl hend hstart hgood hfuel
  have hperm_off := sortBy_perm (fun i j => less (b.Slice i).1 (b.Slice j).1)
    (chainOffsets start rs)
  have hmap_all := map_slice_chainOffsets rs start hseg hend hgood
  have hperm_rs' : ((sortBy (fun i j => less (b.Slice i).1 (b.Slice j).1)
      (chainOffsets start rs)).map (fun o => (b.Slice o).1)).Perm rs := by
    have h1 := hperm_off.map (fun o => (b.Slice o).1)
    rwa [hmap_all] at h1
  have hpw : List.Pairwise (cle less)
      ((sortBy (fun i j => less (b.Slice i).1 (b.Slice j).1)
        (chainOffsets start rs)).map (fun o => (b.Slice o).1)) := by
    have h0 := sortBy_pairwise (fun i j => less (b.Slice i).1 (b.Slice j).1)
      (fun a c h => hA _ _ h) (fun a c d h1 h2 => hT _ _ _ h1 h2)
      (chainOffsets start rs)
    exact List.Pairwise.map _ (fun a c h => h) h0
  have hcong : (sortBy (fun i j => less (b.Slice i).1 (b.Slice j).1)
        (chainOffsets start rs)).map (fun off => rawSlice (b.buf.drop off)) =
      (sortBy (fun i j => less (b.Slice i).1 (b.Slice j).1)
        (chainOffsets start rs)).map (fun off => encRec ((b.Slice off).1)) :=
    List.map_congr_left (fun off hoff =>
      rawSliceDrop_chainOffsets rs start hseg hend hgood off
        (hperm_off.mem_iff.mp hoff))
  have hregion : ((sortBy (fun i j => less (b.Slice i).1 (b.Slice j).1)
        (chainOffsets start rs)).map (fun off => rawSlice (b.buf.drop off))).flatten =
      encChain ((sortBy (fun i j => less (b.Slice i).1 (b.Slice j).1)
        (chainOffsets start rs)).map (fun o => (b.Slice o).1)) := by
    rw [hcong, encChain_eq_flatten, List.map_map]
    rfl
  have hlenreg : (encChain ((sortBy (fun i j => less (b.Slice i).1 (b.Slice j).1)
      (chainOffsets start rs)).map (fun o => (b.Slice o).1))).length =
      (encChain rs).length := length_encChain_perm hperm_rs'
  refine ⟨(sortBy (fun i j => less (b.Slice i).1 (b.Slice j).1)
      (chainOffsets start rs)).map (fun o => (b.Slice o).1),
    hperm_rs', hpw, ?_, ?_, ?_, ?_, ?_⟩ <;>
    simp only [Buffer.sortSmall, hsmall, hregion,
      Nat.add_sub_cancel_left, List.take_of_length_le (le_of_eq hlenreg)]
  · exact length_writeBytes _ _ _
  · exact segAt_writeBytes_self (by omega)
  · exact take_writeBytes (le_refl _) (by omega)
  · exact drop_writeBytes (by omega)

theorem drop_eq_down {buf buf' : List Nat} {m q : Nat}
    (h : buf'.drop m = buf.drop m) (hq : m ≤ q) : buf'.drop q = buf.drop q := by
  have h1 : buf'.drop q = (buf'.drop m).drop (q - m) := by
    rw [List.drop_drop]
    congr 1
    omega
  have h2 : buf.drop q = (buf.drop m).drop (q - m) := by
    rw [List.drop_drop]
    congr 1
    omega
  rw [h1, h2, h]

/-- The boundary offsets of consecutive runs laid out from `p`: one entry
per run plus the final end offset. -/
def runBoundaries (p : Nat) : List (List (List Nat)) → List Nat
  | [] => [p]
  | r :: rest => p :: runBoundaries (p + (encChain r).length) rest

theorem runBoundaries_cons_head (p : Nat) (rss : List (List (List Nat))) :
    runBoundaries p rss = p :: (runBoundaries p rss).tail := by
  cases rss <;> rfl

theorem length_runBoundaries (p : Nat) :
    ∀ rss : List (List (List Nat)), (runBoundaries p rss).length = rss.length + 1 := by
  intro rss
  induction rss generalizing p with
  | nil => rfl
  | cons r rest ih => simp [runBoundaries, ih]

theorem runBoundaries_getD_zero (p : Nat) (rss : List (List (List Nat))) :
    (runBoundaries p rss).getD 0 0 = p := by
  cases rss <;> rfl

theorem runBoundaries_getD_succ (p : Nat) (r : List (List Nat))
    (rest : List (List (List Nat))) (i : Nat) :
    (runBoundaries p (r :: rest)).getD (i + 1) 0 =
      (runBoundaries (p + (encChain r).length) rest).getD i 0 := rfl

theorem runBoundaries_adj (p : Nat) :
    ∀ (rss : List (List (List Nat))) (i : Nat), i < rss.length →
      (runBoundaries p rss).getD (i + 1) 0 =
        (runBoundaries p rss).getD i 0 + (encChain (rss.getD i [])).length := by
  intro rss
  induction rss generalizing p with
  | nil => intro i hi; simp at hi
  | cons r rest ih =>
      intro i hi
      rcases i with _ | j
      · rw [runBoundaries_getD_succ, runBoundaries_getD_zero,
          runBoundaries_getD_zero]
        rfl
      · rw [runBoundaries_getD_succ, runBoundaries_getD_succ]
        simp only [List.length_cons] at hi
        rw [ih (p + (encChain r).length) j (by omega)]
        rfl

theorem runBoundaries_getD_last (p : Nat) :
    ∀ rss : List (List (List Nat)),
      (runBoundaries p rss).getD rss.length 0 =
        p + (encChain rss.flatten).length := by
  intro rss
  induction rss generalizing p with
  | nil => simp [runBoundaries, encChain]
  | cons r rest ih =>
      show (runBoundaries (p + (encChain r).length) rest).getD rest.length 0 = _
      rw [ih (p + (encChain r).length)]
      simp only [List.flatten_cons, encChain_append, List.length_append]
      omega

/-- The concatenation of the runs `F lo, …, F (hi-1)`. -/
def joinRangeAux (F : Nat → List (List Nat)) : Nat → Nat → List (List Nat)
  | 0, _ => []
  | d + 1, i => F i ++ joinRangeAux F d (i + 1)

def joinRange (F : Nat → List (List Nat)) (lo hi : Nat) : List (List Nat) :=
  joinRangeAux F (hi - lo) lo

theorem joinRange_self (F : Nat → List (List Nat)) (lo : Nat) :
    joinRange F lo lo = [] := by
  simp [joinRange, joinRangeAux]

theorem joinRange_one (F : Nat → List (List Nat)) (lo : Nat) :
    joinRange F lo (lo + 1) = F lo := by
  simp [joinRange, joinRangeAux]

theorem joinRangeAux_add (F : Nat → List (List Nat)) :
    ∀ (d1 d2 i : Nat),
      joinRangeAux F (d1 + d2) i = joinRangeAux F d1 i ++ joinRangeAux F d2 (i + d1) := by
  intro d1
  induction d1 with
  | zero => intro d2 i; simp [joinRangeAux]
  | succ d ih =>
      intro d2 i
      have h1 : d + 1 + d2 = (d + d2) + 1 := by omega
      rw [h1]
      show F i ++ joinRangeAux F (d + d2) (i + 1) = _
      rw [ih d2 (i + 1)]
      have h2 : i + 1 + d = i + (d + 1) := by omega
      rw [h2]
      simp [joinRangeAux]

theorem joinRange_split (F : Nat → List (List Nat)) {lo mid hi : Nat}
    (h1 : lo ≤ mid) (h2 : mid ≤ hi) :
    joinRange F lo hi = joinRange F lo mid ++ joinRange F mid hi := by
  rw [joinRange, joinRange, joinRange]
  have h3 : hi - lo = (mid - lo) + (hi - mid) := by omega
  rw [h3, joinRangeAux_add]
  congr 2
  omega

theorem joinRangeAux_mem (F : Nat → List (List Nat)) :
    ∀ (d i : Nat) (p : List Nat), p ∈ joinRangeAux F d i →
      ∃ j, i ≤ j ∧ j < i + d ∧ p ∈ F j := by
  intro d
  induction d with
  | zero => intro i p hp; exact absurd hp (by simp [joinRangeAux])
  | succ d ih =>
      intro i p hp
      rw [joinRangeAux] at hp
      rcases List.mem_append.mp hp with hp | hp
      · exact ⟨i, le_refl _, by omega, hp⟩
      · obtain ⟨j, hj1, hj2, hj3⟩ := ih (i + 1) p hp
        exact ⟨j, by omega, by omega, hj3⟩

theorem boundary_span (offs : List Nat) (F : Nat → List (List Nat))
    (lo hi : Nat)
    (hadj : ∀ i, lo ≤ i → i < hi →
      offs.getD (i + 1) 0 = offs.getD i 0 + (encChain (F i)).length) :
    ∀ (d i : Nat), lo ≤ i → i + d ≤ hi →
      offs.getD (i + d) 0 =
        offs.getD i 0 + (encChain (joinRangeAux F d i)).length := by
  intro d
  induction d with
  | zero => intro i _ _; simp [joinRangeAux, encChain]
  | succ d ih =>
      intro i hlo hhi
      have h1 : i + (d + 1) = (i + 1) + d := by omega
      rw [h1, ih (i + 1) (by omega) (by omega), hadj i hlo (by omega)]
      show _ = offs.getD i 0 + (encChain (F i ++ joinRangeAux F d (i + 1))).length
      rw [encChain_append, List.length_append]
      omega

theorem forall2_getD {α : Type} {R : α → α → Prop} {d : α} :
    ∀ {l' l : List α}, List.Forall₂ R l' l → ∀ i, i < l.length →
      R (l'.getD i d) (l.getD i d) := by
  intro l' l h
  induction h with
  | nil => intro i hi; simp at hi
  | cons hr _ ih =>
      intro i hi
      rcases i with _ | j
      · exact hr
      · simp only [List.length_cons] at hi
        exact ih j (by omega)

theorem flatten_perm_of_forall2 {α : Type} :
    ∀ {l' l : List (List α)},
      List.Forall₂ (fun a b => a.Perm b) l' l → l'.flatten.Perm l.flatten := by
  intro l' l h
  induction h with
  | nil => exact List.Perm.refl _
  | cons hr _ ih =>
      simp only [List.flatten_cons]
      exact hr.append ih

theorem runBoundaries_congr :
    ∀ {rss' rss : List (List (List Nat))} (p : Nat),
      List.Forall₂ (fun r' r => (encChain r').length = (encChain r).length)
        rss' rss →
      runBoundaries p rss' = runBoundaries p rss := by
  intro rss' rss p h
  induction h generalizing p with
  | nil => rfl
  | cons hr _ ih =>
      simp only [runBoundaries, hr]
      exact congrArg _ (ih _)

theorem segAt_flatten_run :
    ∀ (rss : List (List (List Nat))) (buf : List Nat) (p : Nat),
      SegAt buf p (encChain rss.flatten) → ∀ i, i < rss.length →
        SegAt buf ((runBoundaries p rss).getD i 0)
          (encChain (rss.getD i [])) := by
  intro rss
  induction rss with
  | nil => intro buf p _ i hi; simp at hi
  | cons r rest ih =>
      intro buf p hseg i hi
      rw [List.flatten_cons, encChain_append] at hseg
      rcases i with _ | j
      · rw [runBoundaries_getD_zero]
        exact hseg.append_left
      · rw [runBoundaries_getD_succ]
        simp only [List.length_cons] at hi
        exact ih buf (p + (encChain r).length) hseg.append_right j (by omega)

theorem sortSmallFold_step (less : List Nat → List Nat → Bool) (b : Buffer)
    (p p2 : Nat) (rest : List (List (List Nat))) :
    sortSmallFold less b p (runBoundaries p2 rest) =
      sortSmallFold less (b.sortSmall less p p2) p2
        ((runBoundaries p2 rest).tail) := by
  cases rest <;> rfl

theorem sortSmallFold_spec (less : List Nat → List Nat → Bool)
    (hA : Asymm less) (hT : CleTrans less) :
    ∀ (rss : List (List (List Nat))) (b : Buffer) (p : Nat),
      SegAt b.buf p (encChain rss.flatten) →
      1 ≤ p →
      p + (encChain rss.flatten).length ≤ b.offset →
      b.offset ≤ b.buf.length →
      GoodLens rss.flatten →
      ∃ rss',
        List.Forall₂ (fun r' r => r'.Perm r ∧ List.Pairwise (cle less) r')
          rss' rss ∧
        (sortSmallFold less b p ((runBoundaries p rss).tail)).buf.length
          = b.buf.length ∧
        SegAt (sortSmallFold less b p ((runBoundaries p rss).tail)).buf p
          (encChain rss'.flatten) ∧
        (sortSmallFold less b p ((runBoundaries p rss).tail)).buf.take p
          = b.buf.take p ∧
        (sortSmallFold less b p ((runBoundaries p rss).tail)).buf.drop
            (p + (encChain rss.flatten).length)
          = b.buf.drop (p + (encChain rss.flatten).length) ∧
        (sortSmallFold less b p ((runBoundaries p rss).tail)).offset
          = b.offset := by
  intro rss
  induction rss with
  | nil =>
      intro b p hseg hp hoff hcur _
      refine ⟨[], List.Forall₂.nil, rfl, ?_, rfl, rfl, rfl⟩
      show SegAt b.buf p []
      exact segAt_nil (by simp [encChain] at hoff ⊢; omega)
  | cons r rest ih =>
      intro b p hseg hp hoff hcur hgood
      rw [List.flatten_cons, encChain_append] at hseg
      rw [List.flatten_cons, encChain_append, List.length_append] at hoff
      rw [List.flatten_cons, GoodLens_append] at hgood
      have hsegr : SegAt b.buf p (encChain r) := hseg.append_left
      have hsegrest : SegAt b.buf (p + (encChain r).length)
          (encChain rest.flatten) := hseg.append_right
      have hend1 : p + (encChain r).length ≤ b.offset := by omega
      obtain ⟨r', hperm, hpair, hlen1, hseg1, htake1, hdrop1, hoffs1⟩ :=
        sortSmall_spec less hA hT hsegr hp rfl hend1 hcur hgood.1
      set p2 := p + (encChain r).length with hp2
      set b1 := b.sortSmall less p p2 with hb1
      have hsegrest1 : SegAt b1.buf p2 (encChain rest.flatten) :=
        hsegrest.of_drop_eq hlen1 hdrop1 (le_refl _)
      have hih := ih b1 p2 hsegrest1 (by omega)
        (by rw [hoffs1]; omega) (by rw [hoffs1, hlen1]; exact hcur) hgood.2
      obtain ⟨rest', hforall, hlen2, hseg2, htake2, hdrop2, hoffs2⟩ := hih
      have hfold : sortSmallFold less b p ((runBoundaries p (r :: rest)).tail)
          = sortSmallFold less b1 p2 ((runBoundaries p2 rest).tail) := by
        show sortSmallFold less b p (runBoundaries p2 rest) = _
        rw [sortSmallFold_step]
      rw [hfold]
      set b2 := sortSmallFold less b1 p2 ((runBoundaries p2 rest).tail) with hb2
      have hlenr' : (encChain r').length = (encChain r).length :=
        length_encChain_perm hperm
      refine ⟨r' :: rest', List.Forall₂.cons ⟨hperm, hpair⟩ hforall, ?_, ?_, ?_, ?_, ?_⟩
      · rw [hlen2, hlen1]
      · rw [List.flatten_cons, encChain_append]
        refine SegAt.append ?_ ?_
        · refine segAt_of_take_le hseg1 htake2 (by omega) ?_
          rw [hlen1]; omega
        · rw [hlenr']
          exact hseg2
      · rw [take_eq_down htake2 (by omega), take_eq_down htake1 (le_refl _)]
      · rw [List.flatten_cons, encChain_append, List.length_append]
        rw [show p + ((encChain r).length + (encChain rest.flatten).length)
            = p2 + (encChain rest.flatten).length by omega]
        rw [hdrop2, drop_eq_down hdrop1 (by omega)]
      · rw [hoffs2, hoffs1]

theorem sortAux_succ_base (less : List Nat → List Nat → Bool) (offs : List Nat)
    (f : Nat) (buf : List Nat) (lo hi : Nat) (h : lo = lo + (hi - lo) / 2) :
    sortAux less offs (f + 1) buf lo hi = buf := by
  simp only [sortAux]
  rw [if_pos h]

theorem sortAux_succ (less : List Nat → List Nat → Bool) (offs : List Nat)
    (f : Nat) (buf : List Nat) (lo hi : Nat)
    (h : ¬ lo = lo + (hi - lo) / 2) :
    sortAux less offs (f + 1) buf lo hi =
      merge less
        (sortAux less offs f
          (sortAux less offs f buf lo (lo + (hi - lo) / 2))
          (lo + (hi - lo) / 2) hi)
        (extract
          (sortAux less offs f
            (sortAux less offs f buf lo (lo + (hi - lo) / 2))
            (lo + (hi - lo) / 2) hi)
          (offs.getD lo 0) (offs.getD (lo + (hi - lo) / 2) 0))
        (offs.getD (lo + (hi - lo) / 2) 0)
        (offs.getD hi 0 - offs.getD (lo + (hi - lo) / 2) 0)
        (offs.getD lo 0) (offs.getD hi 0) := by
  simp only [sortAux]
  rw [if_neg h]

theorem sortAux_spec (less : List Nat → List Nat → Bool)
    (hA : Asymm less) (hT : CleTrans less)
    (offs : List Nat) (F : Nat → List (List Nat)) :
    ∀ (fuel lo hi : Nat) (buf : List Nat),
      lo ≤ hi →
      hi - lo ≤ fuel →
      (∀ i, lo ≤ i → i < hi →
        offs.getD (i + 1) 0 = offs.getD i 0 + (encChain (F i)).length) →
      (∀ i, lo ≤ i → i < hi → SegAt buf (offs.getD i 0) (encChain (F i))) →
      (∀ i, lo ≤ i → i < hi → List.Pairwise (cle less) (F i)) →
      (∀ i, lo ≤ i → i < hi → GoodLens (F i)) →
      offs.getD hi 0 ≤ buf.length →
      ∃ zs, zs.Perm (joinRange F lo hi) ∧ List.Pairwise (cle less) zs ∧
        (sortAux less offs fuel buf lo hi).length = buf.length ∧
        SegAt (sortAux less offs fuel buf lo hi) (offs.getD lo 0)
          (encChain zs) ∧
        (sortAux less offs fuel buf lo hi).take (offs.getD lo 0)
          = buf.take (offs.getD lo 0) ∧
        (sortAux less offs fuel buf lo hi).drop (offs.getD hi 0)
          = buf.drop (offs.getD hi 0) := by
  intro fuel
  induction fuel with
  | zero =>
      intro lo hi buf hle hfuel _ _ _ _ hbuf
      have hhl : hi = lo := by omega
      subst hhl
      refine ⟨[], by rw [joinRange_self], List.Pairwise.nil, rfl,
        segAt_nil (by simpa [encChain] using hbuf), rfl, rfl⟩
  | succ f ih =>
      intro lo hi buf hle hfuel hadj hseg hpair hgood hbuf
      by_cases hbase : lo = lo + (hi - lo) / 2
      · rw [sortAux_succ_base less offs f buf lo hi hbase]
        have hsmall : hi = lo ∨ hi = lo + 1 := by omega
        rcases hsmall with rfl | rfl
        · exact ⟨[], by rw [joinRange_self], List.Pairwise.nil, rfl,
            segAt_nil (by simpa [encChain] using hbuf), rfl, rfl⟩
        · exact ⟨F lo, by rw [joinRange_one], hpair lo (le_refl _) (by omega),
            rfl, hseg lo (le_refl _) (by omega), rfl, rfl⟩
      · have h2 : lo + 2 ≤ hi := by omega
        have hmid1 : lo < lo + (hi - lo) / 2 := by omega
        have hmid2 : lo + (hi - lo) / 2 < hi := by omega
        rw [sortAux_succ less offs f buf lo hi hbase]
        set mid := lo + (hi - lo) / 2 with hmiddef
        have hspan := boundary_span offs F lo hi hadj
        have hlomid : offs.getD mid 0 =
            offs.getD lo 0 + (encChain (joinRange F lo mid)).length := by
          have h := hspan (mid - lo) lo (le_refl _) (by omega)
          rw [show lo + (mid - lo) = mid by omega] at h
          exact h
        have hmidhi : offs.getD hi 0 =
            offs.getD mid 0 + (encChain (joinRange F mid hi)).length := by
          have h := hspan (hi - mid) mid (by omega) (by omega)
          rw [show mid + (hi - mid) = hi by omega] at h
          exact h
        have hmono : ∀ i, mid ≤ i → i ≤ hi →
            offs.getD mid 0 ≤ offs.getD i 0 := by
          intro i hi1 hi2
          have h := hspan (i - mid) mid (by omega) (by omega)
          rw [show mid + (i - mid) = i by omega] at h
          omega
        obtain ⟨zs1, hperm1, hpair1, hlen1, hseg1, htake1, hdrop1⟩ :=
          ih lo mid buf (by omega) (by omega)
            (fun i h1 h2 => hadj i h1 (by omega))
            (fun i h1 h2 => hseg i h1 (by omega))
            (fun i h1 h2 => hpair i h1 (by omega))
            (fun i h1 h2 => hgood i h1 (by omega))
            (by omega)
        set buf1 := sortAux less offs f buf lo mid with hbuf1
        obtain ⟨zs2, hperm2, hpair2, hlen2, hseg2, htake2, hdrop2⟩ :=
          ih mid hi buf1 (by omega) (by omega)
            (fun i h1 h2 => hadj i (by omega) h2)
            (fun i h1 h2 =>
              (hseg i (by omega) h2).of_drop_eq hlen1 hdrop1 (hmono i h1 (by omega)))
            (fun i h1 h2 => hpair i (by omega) h2)
            (fun i h1 h2 => hgood i (by omega) h2)
            (by omega)
        set buf2 := sortAux less offs f buf1 mid hi with hbuf2
        have hlenzs1 : (encChain zs1).length =
            (encChain (joinRange F lo mid)).length := length_encChain_perm hperm1
        have hlenzs2 : (encChain zs2).length =
            (encChain (joinRange F mid hi)).length := length_encChain_perm hperm2
        have hgj : ∀ j1 j2, lo ≤ j1 → j2 ≤ hi →
            GoodLens (joinRangeAux F (j2 - j1) j1) := by
          intro j1 j2 hj1 hj2 q hq
          obtain ⟨j, hja, hjb, hjc⟩ := joinRangeAux_mem F (j2 - j1) j1 q hq
          exact hgood j (by omega) (by omega) q hjc
        have hlseg2 : SegAt buf2 (offs.getD lo 0) (encChain zs1) := by
          refine segAt_of_take_le hseg1 htake2 (by omega) ?_
          rw [hlen1]
          omega
        have hextract : extract buf2 (offs.getD lo 0) (offs.getD mid 0) =
            encChain zs1 := by
          have h := hlseg2.extract_eq
          rw [show offs.getD lo 0 + (encChain zs1).length = offs.getD mid 0
            by omega] at h
          exact h
        have hrlen : offs.getD hi 0 - offs.getD mid 0 =
            (encChain zs2).length := by omega
        rw [hextract, hrlen]
        obtain ⟨hmlen, hmseg, hmtake, hmdrop⟩ :=
          merge_spec less zs1 zs2 buf2 (offs.getD lo 0) (offs.getD mid 0)
            (offs.getD hi 0) _
            (GoodLens_perm hperm1 (hgj lo mid (le_refl _) (by omega)))
            (GoodLens_perm hperm2 (hgj mid hi (by omega) (le_refl _)))
            hlseg2 hseg2 (by omega) (by omega)
            (by rw [hlen2, hlen1]; omega) rfl
        refine ⟨mergeLists less zs1 zs2, ?_, ?_, ?_, hmseg, ?_, ?_⟩
        · refine (mergeLists_perm less zs1 zs2).trans ?_
          rw [joinRange_split F (by omega : lo ≤ mid) (by omega : mid ≤ hi)]
          exact hperm1.append hperm2
        · exact mergeLists_sorted less hA hT zs1 zs2 hpair1 hpair2
        · rw [hmlen, hlen2, hlen1]
        · rw [take_eq_down hmtake (le_refl _), take_eq_down htake2 (by omega),
            take_eq_down htake1 (le_refl _)]
        · rw [drop_eq_down hmdrop (le_refl _), hdrop2,
            drop_eq_down hdrop1 (by omega)]

theorem checkpointsAux_chain {b : Buffer} :
    ∀ (rs : List (List Nat)) (pos end_ fuel c : Nat),
      SegAt b.buf pos (encChain rs) →
      pos + (encChain rs).length = end_ →
      end_ ≤ b.offset → 1 ≤ pos → GoodLens rs →
      rs.length + 1 ≤ fuel →
      (c % 1024 = 0 →
        ∃ rss, rss.flatten = rs ∧
          checkpointsAux b fuel pos end_ c ++ [end_] = runBoundaries pos rss) ∧
      (¬ c % 1024 = 0 →
        ∃ rs1 rss, rs = rs1 ++ rss.flatten ∧
          checkpointsAux b fuel pos end_ c ++ [end_] =
            runBoundaries (pos + (encChain rs1).length) rss) := by
  intro rs
  induction rs with
  | nil =>
      intro pos end_ fuel c _ hend _ _ _ hfuel
      rcases fuel with _ | f
      · omega
      have hpe : pos = end_ := by simp [encChain] at hend; omega
      rw [checkpointsAux, if_pos (Or.inr (by omega))]
      subst hpe
      exact ⟨fun _ => ⟨[], rfl, rfl⟩, fun _ => ⟨[], [], rfl, rfl⟩⟩
  | cons p rest ih =>
      intro pos end_ fuel c hseg hend hcur hpos hgood hfuel
      rcases fuel with _ | f
      · omega
      have hlp : p.length < 2 ^ 32 := hgood p (List.mem_cons_self _ _)
      have hlch := length_encChain_cons p rest
      have hposlt : pos < end_ := by omega
      rw [checkpointsAux, if_neg (by omega), Slice_at hseg hlp (by omega)]
      rcases rest with _ | ⟨q, rest'⟩
      · have hnil : (encChain ([] : List (List Nat))).length = 0 := rfl
        have hpe : pos + 4 + p.length = end_ := by omega
        have htail : checkpointsAux b f
            ((p, if b.offset ≤ pos + 4 + p.length then 0
              else pos + 4 + p.length).2) end_ (c + 1) = [] := by
          rcases f with _ | f'
          · rfl
          show checkpointsAux b (f' + 1)
            (if b.offset ≤ pos + 4 + p.length then 0 else pos + 4 + p.length)
            end_ (c + 1) = []
          split
          · rw [checkpointsAux, if_pos (Or.inl rfl)]
          · rw [checkpointsAux, if_pos (Or.inr (by omega))]
        rw [htail]
        constructor
        · intro hc
          rw [if_pos hc]
          refine ⟨[[p]], by simp, ?_⟩
          have he : end_ = pos + (encChain [p]).length := by omega
          rw [he]
          rfl
        · intro hc
          rw [if_neg hc]
          refine ⟨[p], [], by simp, ?_⟩
          have he : end_ = pos + (encChain [p]).length := by omega
          rw [he]
          rfl
      · have hq4 : 4 ≤ (encChain (q :: rest')).length := by
          rw [length_encChain_cons]
          omega
        have hnext : (p, if b.offset ≤ pos + 4 + p.length then 0
            else pos + 4 + p.length).2 = pos + (4 + p.length) := by
          show (if b.offset ≤ pos + 4 + p.length then 0
            else pos + 4 + p.length) = pos + (4 + p.length)
          rw [if_neg (by omega)]
          omega
        rw [hnext]
        have hseg' : SegAt b.buf (pos + (4 + p.length))
            (encChain (q :: rest')) := by
          have h := hseg.append_right (s := encRec p) (t := encChain (q :: rest'))
          rwa [length_encRec] at h
        obtain ⟨ih0, ih1⟩ := ih (pos + (4 + p.length)) end_ f (c + 1) hseg'
          (by omega) hcur (by omega)
          (fun x hx => hgood x (List.mem_cons_of_mem _ hx))
          (by simp at hfuel ⊢; omega)
        constructor
        · intro hc
          rw [if_pos hc]
          obtain ⟨rs1, rss, hflat, heq⟩ := ih1 (by omega)
          refine ⟨(p :: rs1) :: rss, by simp [hflat], ?_⟩
          have hpos2 : pos + (encChain (p :: rs1)).length =
              pos + (4 + p.length) + (encChain rs1).length := by
            rw [length_encChain_cons]
            omega
          show pos :: (checkpointsAux b f (pos + (4 + p.length)) end_ (c + 1)
              ++ [end_]) = runBoundaries pos ((p :: rs1) :: rss)
          rw [heq, show runBoundaries pos ((p :: rs1) :: rss) =
            pos :: runBoundaries (pos + (encChain (p :: rs1)).length) rss
            from rfl, hpos2]
        · intro hc
          rw [if_neg hc]
          by_cases hc1 : (c + 1) % 1024 = 0
          · obtain ⟨rss, hflat, heq⟩ := ih0 hc1
            refine ⟨[p], rss, by simp [hflat], ?_⟩
            have hp1 : pos + (encChain [p]).length = pos + (4 + p.length) := by
              rw [length_encChain_cons]
              simp [encChain]
            show checkpointsAux b f (pos + (4 + p.length)) end_ (c + 1)
              ++ [end_] = runBoundaries (pos + (encChain [p]).length) rss
            rw [hp1, heq]
          · obtain ⟨rs1, rss, hflat, heq⟩ := ih1 hc1
            refine ⟨p :: rs1, rss, by simp [hflat], ?_⟩
            have hpos2 : pos + (encChain (p :: rs1)).length =
                pos + (4 + p.length) + (encChain rs1).length := by
              rw [length_encChain_cons]
              omega
            show checkpointsAux b f (pos + (4 + p.length)) end_ (c + 1)
              ++ [end_] = runBoundaries (pos + (encChain (p :: rs1)).length) rss
            rw [hpos2, heq]

theorem checkpointsAux_lt {b : Buffer} :
    ∀ (fuel pos end_ c x : Nat), x ∈ checkpointsAux b fuel pos end_ c →
      x < end_ := by
  intro fuel
  induction fuel with
  | zero =>
      intro pos end_ c x hx
      exact absurd hx (by simp [checkpointsAux])
  | succ f ihf =>
      intro pos end_ c x hx
      rw [checkpointsAux] at hx
      by_cases h : pos = 0 ∨ end_ ≤ pos
      · rw [if_pos h] at hx
        simp at hx
      · rw [if_neg h] at hx
        rcases List.mem_append.mp hx with hx | hx
        · by_cases hc : c % 1024 = 0
          · rw [if_pos hc] at hx
            rw [List.mem_singleton.mp hx]
            omega
          · rw [if_neg hc] at hx
            simp at hx
        · exact ihf _ _ _ x hx

theorem mem_of_getLast_eq_some {l : List Nat} {a : Nat}
    (h : l.getLast? = some a) : a ∈ l := by
  have hd := List.dropLast_append_getLast? a (Option.mem_def.mpr h)
  rw [← hd]
  exact List.mem_append_right _ (List.mem_singleton.mpr rfl)

theorem runBoundaries_headD (p : Nat) (rss : List (List (List Nat))) :
    (runBoundaries p rss).headD 0 = p := by
  cases rss <;> rfl

theorem joinRangeAux_getD :
    ∀ (rss : List (List (List Nat))) (s : Nat) (g : Nat → List (List Nat)),
      (∀ j, j < rss.length → g (s + j) = rss.getD j []) →
      joinRangeAux g rss.length s = rss.flatten := by
  intro rss
  induction rss with
  | nil => intro s g _; rfl
  | cons r rest ihr =>
      intro s g hg
      show g s ++ joinRangeAux g rest.length (s + 1) = r ++ rest.flatten
      have h0 := hg 0 (by simp)
      have hrest : joinRangeAux g rest.length (s + 1) = rest.flatten := by
        refine ihr (s + 1) g ?_
        intro j hj
        have hj1 := hg (j + 1) (by simp only [List.length_cons]; omega)
        rw [show s + 1 + j = s + (j + 1) by omega, hj1]
        rfl
      rw [hrest, show g s = r from by simpa using h0]

theorem getD_mem_flatten {rss : List (List (List Nat))} {i : Nat}
    (hi : i < rss.length) {q : List Nat} (hq : q ∈ rss.getD i []) :
    q ∈ rss.flatten := by
  refine List.mem_flatten.mpr ⟨rss.getD i [], ?_, hq⟩
  rw [List.getD_eq_getElem _ _ hi]
  exact List.getElem_mem hi

theorem SliceRange_chain {b : Buffer} {rs : List (List Nat)} {start end_ : Nat}
    (hseg : SegAt b.buf start (encChain rs))
    (hend : start + (encChain rs).length = end_)
    (hcur : end_ ≤ b.offset) (hstart : 1 ≤ start) (hgood : GoodLens rs) :
    b.SliceRange start end_ = rs := by
  refine sliceRangeAux_chain rs start end_ (b.offset + 1) hseg hend hcur hstart
    hgood ?_
  have h1 := length_encChain_ge rs
  omega

/-- C1: for every buffer holding a well-formed chain of length-prefixed
records in `[start, end_)` with `start ≥ 1`, and every strict weak ordering
`less` on payloads (asymmetric, with transitive induced `cle`),
`SortSliceBetween start end_ less` succeeds and iterating the records of
the range via `Slice` (`SliceRange`) afterwards yields a permutation of the
original payloads that is non-decreasing under `less`: no record is lost,
duplicated, or mutated. -/
theorem C1_sort_correct (b : Buffer) (start end_ : Nat)
    (less : List Nat → List Nat → Bool) (rs : List (List Nat))
    (hA : Asymm less) (hT : CleTrans less)
    (hstart : 1 ≤ start)
    (hseg : SegAt b.buf start (encChain rs))
    (hende : end_ = start + (encChain rs).length)
    (hend : end_ ≤ b.offset)
    (hcur : b.offset ≤ b.buf.length)
    (hgood : GoodLens rs) :
    ∃ b' rs', b.SortSliceBetween start end_ less = some b' ∧
      b'.SliceRange start end_ = rs' ∧ rs'.Perm rs ∧
      List.Pairwise (cle less) rs' := by
  have hlge := length_encChain_ge rs
  by_cases hempty : end_ ≤ start
  · have h0 : (encChain rs).length = 0 := by omega
    have hrs : rs = [] := encChain_nil_of_length h0
    subst hrs
    refine ⟨b, [], ?_, ?_, List.Perm.refl _, List.Pairwise.nil⟩
    · rw [Buffer.SortSliceBetween, if_pos hempty]
    · exact SliceRange_chain hseg (by omega) hend hstart hgood
  · push_neg at hempty
    have hfuel0 : rs.length + 1 ≤ b.offset + 1 := by omega
    obtain ⟨hcp0, _⟩ := checkpointsAux_chain rs start end_ (b.offset + 1) 0
      hseg (by omega) hend hstart hgood hfuel0
    obtain ⟨rss, hflat, heq⟩ := hcp0 (by omega)
    have hlast : ¬ (checkpointsAux b (b.offset + 1) start end_ 0).getLast?
        = some end_ := by
      intro hl
      have := checkpointsAux_lt (b := b) (b.offset + 1) start end_ 0 end_
        (mem_of_getLast_eq_some hl)
      omega
    have hlenflat : (encChain rss.flatten).length = (encChain rs).length := by
      rw [hflat]
    have hsegf : SegAt b.buf start (encChain rss.flatten) := by
      rw [hflat]
      exact hseg
    obtain ⟨rss', hforall, hlen1, hseg1, htake1, hdrop1, hoffs1⟩ :=
      sortSmallFold_spec less hA hT rss b start hsegf hstart (by omega) hcur
        (by rw [hflat]; exact hgood)
    have hlen_eq : rss'.length = rss.length := hforall.length_eq
    have hbd_congr : runBoundaries start rss' = runBoundaries start rss := by
      refine runBoundaries_congr start (hforall.imp ?_)
      intro a c hac
      exact length_encChain_perm hac.1
    have hflat' : rss'.flatten.Perm rs := by
      rw [← hflat]
      exact flatten_perm_of_forall2 (hforall.imp (fun a c hac => hac.1))
    have hadj : ∀ i, 0 ≤ i → i < rss.length →
        (runBoundaries start rss).getD (i + 1) 0 =
          (runBoundaries start rss).getD i 0 +
            (encChain (rss'.getD i [])).length := by
      intro i _ hi
      rw [← hbd_congr]
      exact runBoundaries_adj start rss' i (by omega)
    have hsegs : ∀ i, 0 ≤ i → i < rss.length →
        SegAt (sortSmallFold less b start
            ((runBoundaries start rss).tail)).buf
          ((runBoundaries start rss).getD i 0)
          (encChain (rss'.getD i [])) := by
      intro i _ hi
      have h := segAt_flatten_run rss' _ start hseg1 i (by omega)
      rw [hbd_congr] at h
      exact h
    have hgetD : ∀ i, i < rss.length →
        (rss'.getD i []).Perm (rss.getD i []) ∧
          List.Pairwise (cle less) (rss'.getD i []) :=
      fun i hi => forall2_getD (d := []) hforall i (by omega)
    have hpairs : ∀ i, 0 ≤ i → i < rss.length →
        List.Pairwise (cle less) (rss'.getD i []) :=
      fun i _ hi => (hgetD i hi).2
    have hgoods : ∀ i, 0 ≤ i → i < rss.length →
        GoodLens (rss'.getD i []) := by
      intro i _ hi
      refine GoodLens_perm (hgetD i hi).1 ?_
      intro q hq
      refine hgood q ?_
      rw [← hflat]
      exact getD_mem_flatten (by omega) hq
    have hlast_off : (runBoundaries start rss).getD rss.length 0 = end_ := by
      rw [runBoundaries_getD_last]
      omega
    obtain ⟨zs, hzperm, hzpair, hzlen, hzseg, hztake, hzdrop⟩ :=
      sortAux_spec less hA hT (runBoundaries start rss)
        (fun i => rss'.getD i []) (rss.length + 1) 0 rss.length
        (sortSmallFold less b start ((runBoundaries start rss).tail)).buf
        (by omega) (by omega) hadj hsegs hpairs hgoods
        (by rw [hlast_off, hlen1]; omega)
    have hjoin : joinRange (fun i => rss'.getD i []) 0 rss.length
        = rss'.flatten := by
      rw [joinRange, Nat.sub_zero, ← hlen_eq]
      refine joinRangeAux_getD rss' 0 _ ?_
      intro j hj
      show rss'.getD (0 + j) [] = rss'.getD j []
      rw [Nat.zero_add]
    have hzperm' : zs.Perm rs := (hjoin ▸ hzperm).trans hflat'
    rw [runBoundaries_getD_zero] at hzseg
    have hmain : b.SortSliceBetween start end_ less =
        some { sortSmallFold less b start ((runBoundaries start rss).tail) with
          buf := sortAux less (runBoundaries start rss) (rss.length + 1)
            (sortSmallFold less b start
              ((runBoundaries start rss).tail)).buf 0 rss.length } := by
      have h1 : ¬ end_ ≤ start := by omega
      have h2 : ¬ start = 0 := by omega
      simp only [Buffer.SortSliceBetween, if_neg h1, if_neg h2, if_neg hlast,
        heq, runBoundaries_headD, length_runBoundaries, Nat.add_sub_cancel]
    refine ⟨_, zs, hmain, ?_, hzperm', hzpair⟩
    refine SliceRange_chain ?_ ?_ ?_ hstart (GoodLens_perm hzperm' hgood)
    · exact hzseg
    · rw [length_encChain_perm hzperm']
      omega
    · exact le_of_le_of_eq hend hoffs1.symm

def c1Buf : Buffer :=
  { buf := [0, 0, 0, 0, 1, 9, 0, 0, 0, 1, 5], offset := 11, curSz := 11,
    maxSz := 100, bufType := .UseCalloc, autoMmapAfter := 0 }

/-- Comparator for the C1 witness: order payloads by first byte. -/
def c1Less (a c : List Nat) : Bool := decide (a.headD 0 < c.headD 0)

/-- C1 witness: the sort applied to a concrete two-record buffer holding
the payloads `[9]` and `[5]` at offsets 1 and 6. -/
theorem C1_witness :
    ∃ b' rs', c1Buf.SortSliceBetween 1 11 c1Less = some b' ∧
      b'.SliceRange 1 11 = rs' ∧ rs'.Perm [[9], [5]] ∧
      List.Pairwise (cle c1Less) rs' :=
  C1_sort_correct c1Buf 1 11 c1Less [[9], [5]]
    (fun a c h => by
      simp only [c1Less, decide_eq_true_eq] at h
      simp only [c1Less, decide_eq_false_iff_not]
      omega)
    (fun a c d h1 h2 => by
      simp only [c1Less, decide_eq_false_iff_not] at h1 h2 ⊢
      omega)
    (by decide) (by decide) (by decide) (by decide) (by decide)
    (by intro p hp; simp at hp; rcases hp with rfl | rfl <;> decide)
